import Mathlib

/-!
Verification of the bibi BBCode <-> Markdown converter.

The development shallowly embeds the Rust sources of the repository:
the BBCode reading pipeline of src/bibi/src/bbcode/read.rs (code-span
scanner, list-attribute parser, numbering generator, substitution
cascade) and the BBCode emitter of src/src/bbcode/write.rs.  Text is
modelled as List Char; the one place where the Rust code manipulates raw
byte indices (next_codeend) is additionally modelled on UTF-8 byte
lists, because its behaviour on non-ASCII input differs (it can panic).
-/

/-- Rust regex \s and str::trim use the Unicode White_Space property.
This predicate lists exactly the White_Space code points. -/
def rustWs (c : Char) : Bool :=
  c.toNat = 0x09 || c.toNat = 0x0A || c.toNat = 0x0B || c.toNat = 0x0C ||
  c.toNat = 0x0D || c.toNat = 0x20 || c.toNat = 0x85 || c.toNat = 0xA0 ||
  c.toNat = 0x1680 || (0x2000 ≤ c.toNat && c.toNat ≤ 0x200A) ||
  c.toNat = 0x2028 || c.toNat = 0x2029 || c.toNat = 0x202F ||
  c.toNat = 0x205F || c.toNat = 0x3000

/-- Simple case folding for the case-insensitive (?i) regex flag.  The
patterns of the cascade only contain ASCII letters; besides ASCII case
folding, the only Unicode simple foldings that reach an ASCII letter are
the long s (U+017F, folds with s) and the Kelvin sign (U+212A, folds
with k). -/
def foldChar (c : Char) : Char :=
  if c.toNat = 0x17F then 's'
  else if c.toNat = 0x212A then 'k'
  else c.toLower

/-- Case-insensitive (folded) comparison of a pattern against the head
of a text; returns the rest of the text after the match. -/
def ciDrop : List Char → List Char → Option (List Char)
  | [], s => some s
  | _ :: _, [] => none
  | p :: ps, c :: cs => if foldChar c = foldChar p then ciDrop ps cs else none

/-- Generic exact prefix test over any type with decidable equality
(used both for char lists and for UTF-8 byte lists). -/
def matchDrop [DecidableEq α] : List α → List α → Option (List α)
  | [], s => some s
  | _ :: _, [] => none
  | p :: ps, c :: cs => if c = p then matchDrop ps cs else none

/-- CodeKind from read.rs: the two kinds of code span. -/
inductive CodeKind
  | inline
  | multiline
deriving DecidableEq

/-- DEFAULT_ANON_CODELANG from write.rs. -/
def defaultCodeLang : List Char := ("code").toList

/-- DEFAULT_ANON_ICODELANG from write.rs. -/
def defaultICodeLang : List Char := ("inline").toList

/-- CodeKind::common_start. -/
def commonStart : List Char := ("[c").toList

/-- CodeKind::start_seq. -/
def startSeq : CodeKind → List Char
  | .inline => ("[c=").toList
  | .multiline => ("[code=").toList

/-- CodeKind::end_seq. -/
def endSeq : CodeKind → List Char
  | .inline => ("[/c]").toList
  | .multiline => ("[/code]").toList

/-- CodeKind::is_default_value. -/
def isDefaultValue (kind : CodeKind) (val : List Char) : Bool :=
  match kind with
  | .inline => val = defaultICodeLang
  | .multiline => val = defaultCodeLang

/-- str::find of a literal pattern: index of the first occurrence. -/
def findSub (pat : List Char) : List Char → Option Nat
  | [] => if pat = [] then some 0 else none
  | c :: rest =>
    if (matchDrop pat (c :: rest)).isSome then some 0
    else (findSub pat rest).map (· + 1)

/-- next_codestart from read.rs, fuelled.  The recursive branch is
modelled exactly as written in the source: the recursion runs on
tag[PROBE.len()..] but the returned relative position is added to pos
without the PROBE.len() offset, so positions reported after skipping a
near-miss prefix are short by 2 per skipped occurrence. -/
def nextCodestartF : Nat → List Char → Option (Nat × CodeKind)
  | 0, _ => none
  | fuel + 1, content =>
    (findSub commonStart content).bind fun pos =>
      let tag := content.drop pos
      if (matchDrop (startSeq .inline) tag).isSome then some (pos, .inline)
      else if (matchDrop (startSeq .multiline) tag).isSome then some (pos, .multiline)
      else (nextCodestartF fuel (tag.drop commonStart.length)).map
        fun p => (pos + p.1, p.2)

/-- next_codestart: the fuel bounds the recursion depth; every
recursive call drops at least two characters, so length + 1 never runs
out. -/
def nextCodestart (content : List Char) : Option (Nat × CodeKind) :=
  nextCodestartF (content.length + 1) content

/-- The byte loop of next_codeend, at character level.  The source
iterates over byte positions testing for the end sequence and, for
inline spans, stops at a carriage-return or line-feed byte; on ASCII
text byte positions and character positions coincide.  The byte-exact
model including the panic behaviour is nextCodeendB below. -/
def nextCodeendGo (probe : List Char) (inl : Bool) : Nat → List Char → Option Nat
  | _, [] => none
  | i, c :: rest =>
    if (matchDrop probe (c :: rest)).isSome then some (i + probe.length)
    else if inl && (c = '\r' || c = '\n') then none
    else nextCodeendGo probe inl (i + 1) rest

/-- next_codeend from read.rs (character-level shadow). -/
def nextCodeend (content : List Char) (kind : CodeKind) : Option Nat :=
  nextCodeendGo (endSeq kind) (kind = CodeKind.inline) 0 content

/-- A UTF-8 byte may start a character (char boundary) iff it is below
0x80 or at least 0xC0.  Rust string slicing panics on a non-boundary
index. -/
def isBoundary (b : Nat) : Bool := b < 0x80 || 0xC0 ≤ b

/-- Byte-exact model of next_codeend.  The source computes
content[i..] for every byte index i from 0, which panics (modelled as
Except.error) as soon as i falls inside a multi-byte character, before
the end-sequence test at that position can run. -/
def nextCodeendB (probe : List Nat) (inl : Bool) : Nat → List Nat → Except Unit (Option Nat)
  | _, [] => .ok none
  | i, b :: rest =>
    if !isBoundary b then .error ()
    else if (matchDrop probe (b :: rest)).isSome then .ok (some (i + probe.length))
    else if inl && (b = 13 || b = 10) then .ok none
    else nextCodeendB probe inl (i + 1) rest

/-- UTF-8 encoding of one character. -/
def utf8Char (c : Char) : List Nat :=
  let n := c.toNat
  if n < 0x80 then [n]
  else if n < 0x800 then [0xC0 + n / 64, 0x80 + n % 64]
  else if n < 0x10000 then [0xE0 + n / 4096, 0x80 + n / 64 % 64, 0x80 + n % 64]
  else [0xF0 + n / 262144, 0x80 + n / 4096 % 64, 0x80 + n / 64 % 64, 0x80 + n % 64]

/-- UTF-8 encoding of a text, as the list of its bytes. -/
def utf8 (s : List Char) : List Nat := (s.map utf8Char).flatten

/-- The close of the LANG_TAG regex: after the lazy language group the
pattern is an optional quote, optional whitespace, then a bracket; the
optional quote is greedy, and skipping a present quote cannot succeed
because a quote is not whitespace nor the bracket. -/
def closesLang (t : List Char) : Bool :=
  match t with
  | '"' :: t2 => (t2.dropWhile rustWs).head? = some ']'
  | _ => (t.dropWhile rustWs).head? = some ']'

/-- The lazy language group: grow the group one character at a time
(never across a quote) until the close matches right after it. -/
def langBodyGo (acc : List Char) : List Char → Option (List Char)
  | [] => none
  | c :: rest =>
    if c = '"' then none
    else if closesLang rest then some (acc ++ [c])
    else langBodyGo (acc ++ [c]) rest

/-- One attempt of the LANG_TAG pattern at a fixed start: greedy
optional opening quote, then the lazy group.  When the text starts with
a quote, the group may not begin at the quote itself, so the
quote-skipping backtrack never succeeds and is omitted. -/
def langAttempt (t : List Char) : Option (List Char) :=
  match t with
  | '"' :: t2 => langBodyGo [] t2
  | t1 => langBodyGo [] t1

/-- Backtracking over the greedy leading whitespace of LANG_TAG: try
the maximal run first, then shorter prefixes. -/
def parseLangGo (content : List Char) : Nat → Option (List Char)
  | 0 => langAttempt content
  | w + 1 => langAttempt (content.drop (w + 1)) <|> parseLangGo content w

/-- parse_lang from read.rs: the anchored regex
`^\s*"?([^"]+?)"?\s*\]` applied to the text after the start
sequence. -/
def parseLang (content : List Char) : Option (List Char) :=
  parseLangGo content (content.takeWhile rustWs).length

/-- A chunk of tokenized source: TextChunk from read.rs. -/
inductive TextChunk
  | chars (text : List Char)
  | code (kind : CodeKind) (lang : Option (List Char)) (content : List Char)
deriving DecidableEq

/-- extract_inner from read.rs: the text between the head bracket of
the start tag and the end sequence.  The source unwraps the position of
the bracket and slices; after a successful parse_lang a bracket always
exists, but the slice bounds can still be inverted (lower above upper),
where the source panics while this total model returns the empty list
(that reachable panic is treated with claim C1). -/
def extractInner (tagBlock : List Char) (kind : CodeKind) : List Char :=
  let tagEnd := (tagBlock.takeWhile (· ≠ ']')).length + 1
  (tagBlock.take (tagBlock.length - (endSeq kind).length)).drop tagEnd

/-- The and_then chain of slurp_codetags: find the end sequence, parse
the language, build the code chunk and the rest of the input. -/
def tryCode (start : List Char) (kind : CodeKind) : Option (TextChunk × List Char) :=
  (nextCodeend start kind).bind fun pos =>
    let codeBlock := start.take pos
    (parseLang (codeBlock.drop (startSeq kind).length)).map fun lang =>
      (.code kind (if isDefaultValue kind lang then none else some lang)
        (extractInner codeBlock kind), start.drop pos)

/-- The while loop of slurp_codetags, fuelled.  Each iteration consumes
at least one character of content, so fuel length + 1 is never
exhausted (slurpAuxF_fuel below). -/
def slurpAuxF : Nat → List Char → List TextChunk
  | 0, content => [.chars content]
  | fuel + 1, content =>
    match nextCodestart content with
    | none => [.chars content]
    | some (p, kind) =>
      let start := content.drop p
      match tryCode start kind with
      | some (chunk, rest) =>
        .chars (content.take p) :: chunk :: slurpAuxF fuel rest
      | none =>
        .chars (content.take p) :: .chars (start.take (startSeq kind).length) ::
          slurpAuxF fuel (start.drop (startSeq kind).length)

/-- The chunk sequence produced by the slurp_codetags loop, before
compaction. -/
def slurpRaw (content : List Char) : List TextChunk :=
  slurpAuxF (content.length + 1) content

/-- The fold of compact from read.rs, with the pending plain-text run
as explicit state; the final flush of the reminder is the base case. -/
def compactGo : Option (List Char) → List TextChunk → List TextChunk
  | none, [] => []
  | some t, [] => [.chars t]
  | none, .code k l c :: rest => .code k l c :: compactGo none rest
  | some t, .code k l c :: rest => .chars t :: .code k l c :: compactGo none rest
  | none, .chars cs :: rest => compactGo (some cs) rest
  | some t, .chars cs :: rest => compactGo (some (t ++ cs)) rest

/-- compact from read.rs: merge adjacent plain-text chunks. -/
def compact (chunks : List TextChunk) : List TextChunk :=
  compactGo none chunks

/-- slurp_codetags from read.rs. -/
def slurpCodetags (content : List Char) : List TextChunk :=
  compact (slurpRaw content)

/-- A backtick, as a one-character list. -/
def btick : List Char := ("`").toList

/-- code_str from read.rs: inline spans become the content between
single backticks (the language is discarded); multiline spans become a
fenced block with the language (empty when none) as info string. -/
def codeStr (kind : CodeKind) (lang : Option (List Char)) (content : List Char) : List Char :=
  match kind with
  | .inline => btick ++ content ++ btick
  | .multiline =>
    btick ++ btick ++ btick ++ lang.getD [] ++ '\n' :: content ++
      '\n' :: (btick ++ btick ++ btick ++ ['\n'])

/-- NumberingStyle from read.rs. -/
inductive NumberingStyle
  | decimal
  | lowerAlpha
  | upperAlpha
  | lowerRoman
  | upperRoman
deriving DecidableEq

/-- ListType from read.rs. -/
inductive ListType
  | unordered
  | ordered (style : NumberingStyle)
deriving DecidableEq

/-- ListHead from read.rs; start is an i16 in the source, modelled as
an Int with explicit 16-bit wrapping where the source can overflow. -/
structure ListHead where
  ltype : ListType
  start : Int
deriving DecidableEq

/-- Default::default for ListHead. -/
def ListHead.init : ListHead := ⟨.unordered, 0⟩

/-- Interpretation of an i16 two's-complement wrap of an Int. -/
def wrap16 (x : Int) : Int := (x + 32768) % 65536 - 32768

/-- An i16 value cast to u8 with `as`, i.e. truncated mod 256. -/
def toU8 (x : Int) : Nat := (x % 256).toNat

/-- Decimal digits of a natural number, fuelled (fuel n + 1 always
suffices since the value shrinks by a factor of ten each step). -/
def natDigitsF : Nat → Nat → List Char
  | 0, _ => []
  | fuel + 1, n =>
    if n < 10 then [Char.ofNat (48 + n)]
    else natDigitsF fuel (n / 10) ++ [Char.ofNat (48 + n % 10)]

/-- The decimal rendering of an Int, as i16::to_string produces it. -/
def intStr (n : Int) : List Char :=
  if n < 0 then '-' :: natDigitsF ((-n).toNat + 1) (-n).toNat
  else natDigitsF (n.toNat + 1) n.toNat

/-- Modelled from the spec: classical Roman-numeral encoding.  The
source renders Roman numerals with the numerals crate, an external
dependency whose code is not part of this repository; the spec fixes
its behaviour as the classical encoding, lower or upper case. -/
def romanPairs : List (Nat × List Char) :=
  [(1000, ("m").toList), (900, ("cm").toList), (500, ("d").toList),
   (400, ("cd").toList), (100, ("c").toList), (90, ("xc").toList),
   (50, ("l").toList), (40, ("xl").toList), (10, ("x").toList),
   (9, ("ix").toList), (5, ("v").toList), (4, ("iv").toList), (1, ("i").toList)]

/-- Greedy digit decomposition over the Roman value table. -/
def romanGo : List (Nat × List Char) → Nat → List Char
  | [], _ => []
  | (v, s) :: ps, n => (List.replicate (n / v) s).flatten ++ romanGo ps (n % v)

/-- Classical Roman numeral of an Int (empty for non-positive values). -/
def romanOf (n : Int) : List Char :=
  if n ≤ 0 then [] else romanGo romanPairs n.toNat

/-- The label text NumberingIterator::next builds for cursor value cur,
before the ordinal suffix: Decimal renders the decimal string; the
alphabetic styles compute (cur % 26) with truncated remainder, cast it
to u8 and add the base letter (u8 arithmetic wraps in release builds,
which the mod 256 makes explicit); the Roman styles format the Roman
numeral in the requested case. -/
def numRender (style : NumberingStyle) (cur : Int) : List Char :=
  match style with
  | .decimal => intStr cur
  | .lowerAlpha => [Char.ofNat ((toU8 (Int.tmod cur 26) + 97) % 256)]
  | .upperAlpha => [Char.ofNat ((toU8 (Int.tmod cur 26) + 65) % 256)]
  | .lowerRoman => romanOf cur
  | .upperRoman => (romanOf cur).map Char.toUpper

/-- NumberingIterator::next: the produced label (rendering plus the
". " suffix) and the new cursor.  The cursor is an i16 incremented by
one per label; the increment overflows at 32767 (panicking in debug
builds, wrapping in release builds — the wrap is modelled). -/
def numNext (style : NumberingStyle) (cur : Int) : List Char × Int :=
  (numRender style cur ++ (". ").toList, wrap16 (cur + 1))

/-- ListHeadElement from read.rs. -/
inductive ListHeadElement
  | start (n : Int)
  | type (ty : NumberingStyle)
deriving DecidableEq

/-- nom space1: one or more spaces or tabs. -/
def isSpaceTab (c : Char) : Bool := c = ' ' || c = '\t'

/-- The decimal value of a digit run (the value str::parse computes on
a recognized digit1 string). -/
def digitsVal (ds : List Char) : Nat :=
  ds.foldl (fun a c => a * 10 + (c.toNat - 48)) 0

/-- The start_spec parser: tag "start", char =, then a quoted digit1
run parsed as an i16 (map_res fails above i16::MAX, making the whole
token unrecognized).  digit1 consumes the maximal digit run, written
as the takeWhile and dropWhile split. -/
def startSpecP (s : List Char) : Option (Int × List Char) :=
  (matchDrop (("start=\"").toList) s).bind fun s3 =>
    if s3.takeWhile Char.isDigit = [] then none
    else if digitsVal (s3.takeWhile Char.isDigit) ≤ 32767 then
      (matchDrop (['"']) (s3.dropWhile Char.isDigit)).map fun s4 =>
        ((digitsVal (s3.takeWhile Char.isDigit) : Int), s4)
    else none

/-- ol_type from read.rs: the five single-character numbering tags,
tried in the order of the alt. -/
def olType (s : List Char) : Option (NumberingStyle × List Char) :=
  match s with
  | [] => none
  | c :: r =>
    if c = '1' then some (.decimal, r)
    else if c = 'a' then some (.lowerAlpha, r)
    else if c = 'A' then some (.upperAlpha, r)
    else if c = 'i' then some (.lowerRoman, r)
    else if c = 'I' then some (.upperRoman, r)
    else none

/-- The type_spec parser: tag "type", char =, quoted ol_type. -/
def typeSpecP (s : List Char) : Option (NumberingStyle × List Char) :=
  (matchDrop (("type=\"").toList) s).bind fun s2 =>
    (olType s2).bind fun p =>
      (matchDrop (['"']) p.2).map fun s4 => (p.1, s4)

/-- One iteration of the fold_many0 body: preceded(space1, alt((start_spec,
type_spec))).  A failure anywhere reverts the whole iteration, including
the whitespace. -/
def tokenP (s : List Char) : Option (ListHeadElement × List Char) :=
  if s.takeWhile isSpaceTab = [] then none
  else
    match startSpecP (s.dropWhile isSpaceTab) with
    | some (v, r) => some (.start v, r)
    | none =>
      match typeSpecP (s.dropWhile isSpaceTab) with
      | some (ty, r) => some (.type ty, r)
      | none => none

/-- fold_many0 over tokenP, fuelled (every token consumes at least its
leading whitespace, so length + 1 suffices); returns the recognized
elements in textual order together with the unconsumed remainder. -/
def foldTokensF : Nat → List Char → List ListHeadElement × List Char
  | 0, s => ([], s)
  | fuel + 1, s =>
    match tokenP s with
    | none => ([], s)
    | some (e, r) =>
      let p := foldTokensF fuel r
      (e :: p.1, p.2)

/-- The fold_many0 pass of list_head. -/
def foldTokens (s : List Char) : List ListHeadElement × List Char :=
  foldTokensF (s.length + 1) s

/-- str::trim().is_empty(): every character is Unicode whitespace. -/
def allWs (s : List Char) : Bool := s.all rustWs

/-- The accepting part of list_head: the collected elements when the
remainder after fold_many0 is all whitespace, a parse error (None)
otherwise.  The source stores the elements in a HashSet, so exact
duplicates collapse while the iteration order of distinct elements is
unspecified; the element list in textual order is returned here and
the set resolution is treated separately. -/
def listHeadElems (input : List Char) : Option (List ListHeadElement) :=
  if allWs (foldTokens input).2 then some (foldTokens input).1 else none

/-- The resolution fold of list_head over the collected elements: a
start value always overwrites the start field and promotes an unordered
list to Ordered(Decimal); a type value overwrites the list type. -/
def resolveElems (es : List ListHeadElement) : ListHead :=
  es.foldl
    (fun head e =>
      match e with
      | .start v =>
        { start := v,
          ltype := if head.ltype = ListType.unordered then ListType.ordered .decimal
                   else head.ltype }
      | .type ty => { head with ltype := .ordered ty })
    ListHead.init

/-- list_head as the conversion pipeline consumes it.  The HashSet
iteration order of the source is unspecified; this determinization
folds the distinct elements in textual order (all orders agree unless
the same key occurs with conflicting values, which claim C4 treats
explicitly over all permutations). -/
def listHeadDet (input : List Char) : Option ListHead :=
  (listHeadElems input).map fun es => resolveElems es.dedup

/-- The leftmost match of the BBCODE_BULLET regex ([*] plus trailing
whitespace): the text before the match and the text after it. -/
def bulletSplit : List Char → Option (List Char × List Char)
  | [] => none
  | c :: rest =>
    if c = '[' ∧ rest.take 2 = ['*', ']'] then some ([], (rest.drop 2).dropWhile rustWs)
    else (bulletSplit rest).map fun p => (c :: p.1, p.2)

/-- A character that cannot take part in a bullet marker. -/
def cleanCh (c : Char) : Bool := c ≠ '[' && c ≠ '*' && c ≠ ']'

/-- The number of bullet markers [*] in a text (occurrences cannot
overlap). -/
def countBullets : List Char → Nat
  | '[' :: '*' :: ']' :: rest => countBullets rest + 1
  | _ :: rest => countBullets rest
  | [] => 0

/-- Regex::replace with a fixed replacement: rewrite the leftmost
bullet match, or return the text unchanged. -/
def replaceFirstBullet (lbl : List Char) (s : List Char) : List Char :=
  match bulletSplit s with
  | none => s
  | some p => p.1 ++ lbl ++ p.2

/-- The ordered branch of to_markdown_list: the try_fold that pulls one
label per pass, replaces the first bullet match and stops as soon as a
pass changes nothing.  Fuelled with one unit per pass; countBullets + 1
suffices because a productive pass removes exactly one marker and sane
labels introduce none (established with claim C5). -/
def ordLoopF (style : NumberingStyle) : Nat → Int → List Char → List Char
  | 0, _, current => current
  | fuel + 1, n, current =>
    let p := numNext style n
    let new := replaceFirstBullet p.1 current
    if new = current then current else ordLoopF style fuel p.2 new

/-- The unordered branch of to_markdown_list: replace_all of the bullet
regex with "- " (non-overlapping matches, scanning resumes after each
match). -/
def unorderedF : Nat → List Char → List Char
  | 0, s => s
  | fuel + 1, s =>
    match bulletSplit s with
    | none => s
    | some p => p.1 ++ ("- ").toList ++ unorderedF fuel p.2

/-- The claim-side reading of ordered replacement: a single pass that
gives the j-th bullet marker the label generated for cursor start + j,
each label consumed exactly once, markers beyond the count untouched
because the pass simply ends. -/
def indexedReplaceF (style : NumberingStyle) : Nat → Int → List Char → List Char
  | 0, _, s => s
  | fuel + 1, n, s =>
    match bulletSplit s with
    | none => s
    | some p => p.1 ++ (numNext style n).1 ++ indexedReplaceF style fuel (n + 1) p.2

/-- to_markdown_list from read.rs. -/
def toMarkdownList (head content : List Char) : Option (List Char) :=
  (listHeadDet head).map fun lh =>
    match lh.ltype with
    | .unordered => unorderedF (content.length + 1) content
    | .ordered style => ordLoopF style (countBullets content + 1) lh.start content

/-- str::lines: split on line feeds, dropping a final empty line and a
trailing carriage return on each line. -/
def splitOnNl : List Char → List (List Char)
  | [] => [[]]
  | '\n' :: rest => [] :: splitOnNl rest
  | c :: rest =>
    match splitOnNl rest with
    | [] => [[c]]
    | p :: ps => (c :: p) :: ps

/-- Strip one trailing carriage return (str::lines on CRLF input). -/
def stripCr (l : List Char) : List Char :=
  if l.getLast? = some '\r' then l.dropLast else l

/-- str::lines over a character list: split at every line feed, strip
the carriage return only from lines that were terminated by a line
feed; an unterminated final line keeps a trailing carriage return. -/
def rustLines (s : List Char) : List (List Char) :=
  if s = [] then []
  else
    let parts := splitOnNl s
    if s.getLast? = some '\n' then (parts.dropLast).map stripCr
    else parts.dropLast.map stripCr ++ [parts.getLastD []]

/-- to_markdown_quote from read.rs: prefix every line with "> " and
rejoin with line feeds. -/
def toMarkdownQuote (text : List Char) : List Char :=
  List.intercalate (['\n']) ((rustLines text).map fun l => ("> ").toList ++ l)

/-- Try each pattern of an alternation in order against the head of
the text (case-insensitively), returning the rest after the first that
matches. -/
def ciAny : List (List Char) → List Char → Option (List Char)
  | [], _ => none
  | p :: ps, s => (ciDrop p s) <|> ciAny ps s

/-- The lazy one-or-more group of a pattern OPEN(.+?)CLOSE: grow the
group one character at a time (stopping at a line feed unless the s
flag is set) until the close alternation matches right after it. -/
def growBody (closePats : List (List Char)) (dotAll : Bool) (acc : List Char) :
    List Char → Option (List Char × List Char)
  | [] => none
  | c :: rest =>
    if !dotAll && c = '\n' then none
    else
      match ciAny closePats rest with
      | some after => some (acc ++ [c], after)
      | none => growBody closePats dotAll (acc ++ [c]) rest

/-- A cascade rule of the simple shape OPEN(.+?)CLOSE with a
replacement that wraps the group between fixed text. -/
def simpleRule (openPats closePats : List (List Char)) (dotAll : Bool)
    (pre post : List Char) (s : List Char) : Option (List Char × List Char) :=
  (ciAny openPats s).bind fun r =>
    (growBody closePats dotAll [] r).map fun p => (pre ++ p.1 ++ post, p.2)

/-- One replace_all pass: scan left to right, rewriting each match and
resuming right after it; fuelled by the text length, which suffices
because every step consumes at least one character of the scanned
text. -/
def scanReplaceF (att : List Char → Option (List Char × List Char)) :
    Nat → List Char → List Char
  | 0, s => s
  | _ + 1, [] => []
  | fuel + 1, c :: rest =>
    match att (c :: rest) with
    | some p => p.1 ++ scanReplaceF att fuel p.2
    | none => c :: scanReplaceF att fuel rest

/-- One pass of the cascade over a whole text. -/
def rulePass (att : List Char → Option (List Char × List Char)) (s : List Char) : List Char :=
  scanReplaceF att (s.length + 1) s

/-- The close of the labelled-link group one: an optional (greedy)
quote then the bracket.  Skipping a present quote cannot succeed
because the bracket test then hits the quote itself. -/
def urlClose : List Char → Option (List Char)
  | '"' :: ']' :: t2 => some t2
  | ']' :: t2 => some t2
  | _ => none

/-- Group search for the labelled link rule: grow the destination
group lazily; at each close candidate the label group must also
complete, otherwise the destination keeps growing (regex
backtracking). -/
def url1G1 (acc : List Char) : List Char → Option (List Char × List Char × List Char)
  | [] => none
  | c :: rest =>
    if c = '\n' then none
    else
      let g1 := acc ++ [c]
      match urlClose rest with
      | some t2 =>
        match growBody [("[/url]").toList] false [] t2 with
        | some p => some (g1, p.1, p.2)
        | none => url1G1 g1 rest
      | none => url1G1 g1 rest

/-- Cascade rule 1, the labelled link
`(?i)\[url="?(.+?)"?\](.+?)\[/url\]` rewritten to
a Markdown link with the label first.  The greedy optional opening
quote is tried first when present. -/
def tryUrl1 (s : List Char) : Option (List Char × List Char) :=
  (ciDrop (("[url=").toList) s).bind fun r0 =>
    ((match r0 with
      | '"' :: r1 => url1G1 [] r1 <|> url1G1 [] r0
      | _ => url1G1 [] r0) :
        Option (List Char × List Char × List Char)).map fun g =>
      ('[' :: g.2.1 ++ (("](").toList) ++ g.1 ++ [')'], g.2.2)

/-- Cascade rule 2, the bare link. -/
def tryUrl2 (s : List Char) : Option (List Char × List Char) :=
  simpleRule [("[url]").toList] [("[/url]").toList] false (("[](").toList) ([')']) s

/-- Cascade rule 4, the cur emphasis. -/
def tryCur (s : List Char) : Option (List Char × List Char) :=
  simpleRule [("[cur]").toList] [("[/cur]").toList] false (['*']) (['*']) s

/-- Cascade rule 5, bold. -/
def tryBold (s : List Char) : Option (List Char × List Char) :=
  simpleRule [("[b]").toList] [("[/b]").toList] false (("**").toList) (("**").toList) s

/-- Cascade rule 6, remaining italic or cur emphasis (open and close
alternations are independent). -/
def tryEm (s : List Char) : Option (List Char × List Char) :=
  simpleRule [("[i]").toList, ("[cur]").toList]
    [("[/i]").toList, ("[/cur]").toList] false (['*']) (['*']) s

/-- Cascade rule 7, strikethrough. -/
def tryDel (s : List Char) : Option (List Char × List Char) :=
  simpleRule [("[del]").toList] [("[/del]").toList] false (("~~").toList) (("~~").toList) s

/-- Cascade rule 8, image. -/
def tryImg (s : List Char) : Option (List Char × List Char) :=
  simpleRule [("[img]").toList] [("[/img]").toList] false (("![](").toList) ([')']) s

/-- Cascade rule 9, the multi-line quote block (s flag set). -/
def tryQuote (s : List Char) : Option (List Char × List Char) :=
  (ciDrop (("[quote]").toList) s).bind fun r =>
    (growBody [("[/quote]").toList] true [] r).map fun p => (toMarkdownQuote p.1, p.2)

/-- The body of the heading rule
`(?mi)^[ \t]*\[big\](.+?)\[/big\][ \t]*$`: grow the group lazily; at
each close candidate the trailing blank run must reach a line end,
otherwise the group keeps growing. -/
def bigBody (acc : List Char) : List Char → Option (List Char × List Char)
  | [] => none
  | c :: rest =>
    if c = '\n' then none
    else
      let body := acc ++ [c]
      match ciDrop (("[/big]").toList) rest with
      | some t =>
        let t2 := t.drop (t.takeWhile isSpaceTab).length
        if t2 = [] || t2.head? = some '\n' then some (body, t2)
        else bigBody body rest
      | none => bigBody body rest

/-- A heading match attempt at a line start: leading blanks, the open
tag, the lazy body, the close tag and trailing blanks up to the line
end (the line feed itself is not part of the match). -/
def tryBig (s : List Char) : Option (List Char × List Char) :=
  (ciDrop (("[big]").toList) (s.drop (s.takeWhile isSpaceTab).length)).bind fun r =>
    (bigBody [] r).map fun p => ((("# ").toList) ++ p.1, p.2)

/-- Cascade rule 3, the line-anchored heading: replace_all with the
multiline flag, scanning with an explicit at-line-start state so the
anchors match only at the start of the text or right after a line
feed. -/
def bigScanF : Nat → Bool → List Char → List Char
  | 0, _, s => s
  | _ + 1, _, [] => []
  | fuel + 1, atLS, c :: rest =>
    if atLS then
      match tryBig (c :: rest) with
      | some p => p.1 ++ bigScanF fuel false p.2
      | none => c :: bigScanF fuel (c = '\n') rest
    else c :: bigScanF fuel (c = '\n') rest

/-- The heading pass over a whole text. -/
def bigPass (s : List Char) : List Char :=
  bigScanF (s.length + 1) true s

/-- Group search for the list rule `(?si)\[list(.*?)\](.+?)\[/list\]`:
the attribute group may be empty and grows lazily; at each bracket the
body group must complete, otherwise the bracket joins the attribute
group and the search goes on. -/
def listG1 (g1acc : List Char) : List Char → Option (List Char × List Char × List Char)
  | [] => none
  | ']' :: t2 =>
    (match growBody [("[/list]").toList] true [] t2 with
     | some p => some (g1acc, p.1, p.2)
     | none => listG1 (g1acc ++ [']']) t2)
  | c :: rest => listG1 (g1acc ++ [c]) rest

/-- Cascade rule 10, the list block: on a match, convert via
to_markdown_list; when the list head fails to parse the whole matched
text (caps[0], reconstructed from the original characters) is emitted
unchanged. -/
def tryList (s : List Char) : Option (List Char × List Char) :=
  (ciDrop (("[list").toList) s).bind fun r0 =>
    (listG1 [] r0).map fun g =>
      (match toMarkdownList g.1 g.2.1 with
       | some md => md
       | none => s.take (5 + g.1.length + 1 + g.2.1.length + 7), g.2.2)

/-- replace_bbcode from read.rs: the ten replace_all passes in their
fixed order.  The source keeps the previous string when replace_all
returns a borrowed value (no match) and the new one otherwise, which
is in both cases the replaced text. -/
def replaceBBCode (text : List Char) : List Char :=
  rulePass tryList
    (rulePass tryQuote
      (rulePass tryImg
        (rulePass tryDel
          (rulePass tryEm
            (rulePass tryBold
              (rulePass tryCur
                (bigPass
                  (rulePass tryUrl2
                    (rulePass tryUrl1 text)))))))))

/-- Rendering of one chunk inside convert_bbcode: plain text goes
through the cascade, code spans through code_str. -/
def renderChunk : TextChunk → List Char
  | .chars text => replaceBBCode text
  | .code k l c => codeStr k l c

/-- convert_bbcode from read.rs: scan, then fold the rendered chunks
into the output string. -/
def convertBBCode (content : List Char) : List Char :=
  (slurpCodetags content).foldl (fun s blk => s ++ renderChunk blk) []

/-- dump_markdown / the JS to_markdown binding: write convert_bbcode
to the sink and re-read the bytes as text; the sink is an in-memory
vector, so the observable result is the converted text itself. -/
def toMarkdown (content : List Char) : List Char := convertBBCode content

/-- CodeBlockKind consumed by the emitter (pulldown-cmark shape). -/
inductive CBKind
  | fenced (info : List Char)
  | indented
deriving DecidableEq

/-- Tag from write.rs, with the fields the emitter reads. -/
inductive BBTag
  | paragraph
  | heading
  | blockQuote
  | codeBlock (info : CBKind)
  | list (start : Option Int)
  | item
  | emphasis
  | strong
  | strikethrough
  | link (dest : List Char)
  | image (dest : List Char)
  | other
deriving DecidableEq

/-- Event from write.rs: the abstract markup events the emitter
consumes (events of kinds the emitter ignores are collapsed into
otherEv). -/
inductive BBEvent
  | startT (tag : BBTag)
  | endT (tag : BBTag)
  | text (t : List Char)
  | codeEv (t : List Char)
  | softBreak
  | hardBreak
  | rule
  | otherEv
deriving DecidableEq

/-- The emitter state: the bytes written so far and the at_newline
flag.  The sink is an in-memory vector, so writes never fail. -/
structure EmitState where
  out : List Char
  atNewline : Bool
deriving DecidableEq

/-- write_fmt from write.rs: append the formatted fragment and set
at_newline from the last byte of the fragment (false for an empty
fragment, since buf.last() is None). -/
def writeS (es : EmitState) (frag : List Char) : EmitState :=
  ⟨es.out ++ frag, frag.getLast? == some '\n'⟩

/-- ensure_newline from write.rs (non-Windows line ending). -/
def ensureNewline (es : EmitState) : EmitState :=
  if es.atNewline then es else writeS es ['\n']

/-- The fence-info language of a code block: the first
space-delimited token, or the default label when empty or indented. -/
def cbLang (info : CBKind) : List Char :=
  match info with
  | .fenced i =>
    let lang := i.takeWhile (· ≠ ' ')
    if lang = [] then ("code").toList else lang
  | .indented => defaultCodeLang

/-- start_tag from write.rs. -/
def startTagE (es : EmitState) : BBTag → EmitState
  | .paragraph => es
  | .heading => writeS es (("[big]").toList)
  | .blockQuote => writeS es (("[quote]\n").toList)
  | .codeBlock info => writeS es ((("[code=").toList) ++ cbLang info ++ (("]\n").toList))
  | .list (some n) =>
    if n = 1 then writeS es (("[list type=\"1\"]\n").toList)
    else writeS es ((("[list start=\"").toList) ++ intStr n ++ (("\"]\n").toList))
  | .list none => writeS es (("[list]\n").toList)
  | .item => writeS (ensureNewline es) (("[*]").toList)
  | .emphasis => writeS es (("[cur]").toList)
  | .strong => writeS es (("[b]").toList)
  | .strikethrough => writeS es (("[del]").toList)
  | .link dest => writeS es ((("[url=").toList) ++ dest ++ [']'])
  | .image dest => writeS es ((("[img]").toList) ++ dest ++ (("[/img]").toList))
  | .other => es

/-- end_tag from write.rs. -/
def endTagE (es : EmitState) : BBTag → EmitState
  | .paragraph => writeS es (("\n\n").toList)
  | .heading => writeS es (("[/big]\n\n").toList)
  | .blockQuote => writeS es (("[/quote]\n").toList)
  | .codeBlock _ => writeS (ensureNewline es) (("[/code]\n").toList)
  | .list _ => writeS (ensureNewline es) (("[/list]\n").toList)
  | .item => es
  | .emphasis => writeS es (("[/cur]").toList)
  | .strong => writeS es (("[/b]").toList)
  | .strikethrough => writeS es (("[/del]").toList)
  | .link _ => writeS es (("[/url]").toList)
  | .image _ => es
  | .other => es

/-- One step of the run loop of write.rs. -/
def emitEvent (es : EmitState) : BBEvent → EmitState
  | .startT tag => startTagE es tag
  | .endT tag => endTagE es tag
  | .text t => writeS es t
  | .codeEv t =>
    writeS (writeS (writeS es ((("[c=").toList) ++ defaultICodeLang ++ [']'])) t)
      (("[/c]").toList)
  | .softBreak => writeS es ['\n']
  | .hardBreak => writeS es (("\n\n").toList)
  | .rule => writeS es (("[hr]\n").toList)
  | .otherEv => es

/-- BBCode::new initial state: empty output, at_newline = true. -/
def emitInit : EmitState := ⟨[], true⟩

/-- The run loop of write.rs over a finite event sequence. -/
def runEmit (es : EmitState) (evs : List BBEvent) : EmitState :=
  evs.foldl emitEvent es

/-- dump_bbcode with the external parser abstracted away: the emitter
applied to a supplied event sequence from the initial state. -/
def dumpBBCode (evs : List BBEvent) : List Char :=
  (runEmit emitInit evs).out

/-- The meaning of the at_newline flag: when set, the output so far is
empty or ends with a line feed. -/
def StateInv (es : EmitState) : Prop :=
  es.atNewline = true → es.out = [] ∨ es.out.getLast? = some '\n'

/-- The token grammar realized by the source parsers: after start= a
quoted maximal digit run (nom digit1 — no sign) whose value parses as
an i16, or after type= one of the five numbering letters quoted. -/
inductive AttrTok : List Char → Prop
  | startTok (ds : List Char) (h1 : ds ≠ []) (h2 : ∀ c ∈ ds, c.isDigit)
      (h3 : digitsVal ds ≤ 32767) :
      AttrTok ((("start=\"").toList) ++ ds ++ ['"'])
  | typeTok (c : Char) (h : c ∈ ['1', 'a', 'A', 'i', 'I']) :
      AttrTok ((("type=\"").toList) ++ [c, '"'])

/-- The attribute language realized by list_head: zero or more
recognized tokens, each preceded by at least one space or tab (nom
space1), in any order and count, with only Unicode whitespace
(str::trim) allowed to remain at the end. -/
inductive AttrLang : List Char → Prop
  | trailing (s : List Char) (h : ∀ c ∈ s, rustWs c) : AttrLang s
  | cons (w t rest : List Char) (hw : w ≠ []) (hw2 : ∀ c ∈ w, isSpaceTab c)
      (ht : AttrTok t) (hr : AttrLang rest) : AttrLang (w ++ t ++ rest)

/-- Modelled from the claim words: a start token carrying a signed
small integer (an optional sign before the digits, value within the
signed 16-bit range), or a type token with one of the five numbering
letters. -/
inductive AttrTokClaim : List Char → Prop
  | startTok (sg ds : List Char) (h0 : sg = [] ∨ sg = ['+'] ∨ sg = ['-'])
      (h1 : ds ≠ []) (h2 : ∀ c ∈ ds, c.isDigit)
      (h3 : -32768 ≤ (if sg = ['-'] then -(digitsVal ds : Int) else (digitsVal ds : Int)))
      (h4 : (if sg = ['-'] then -(digitsVal ds : Int) else (digitsVal ds : Int)) ≤ 32767) :
      AttrTokClaim ((("start=\"").toList) ++ sg ++ ds ++ ['"'])
  | typeTok (c : Char) (h : c ∈ ['1', 'a', 'A', 'i', 'I']) :
      AttrTokClaim ((("type=\"").toList) ++ [c, '"'])

/-- Modelled from the claim words: zero or more recognized tokens,
each separated from what precedes it by arbitrary whitespace, in any
order and count, with only whitespace allowed to remain at the end. -/
inductive AttrLangClaim : List Char → Prop
  | trailing (s : List Char) (h : ∀ c ∈ s, rustWs c) : AttrLangClaim s
  | cons (w t rest : List Char) (hw : w ≠ []) (hw2 : ∀ c ∈ w, rustWs c)
      (ht : AttrTokClaim t) (hr : AttrLangClaim rest) : AttrLangClaim (w ++ t ++ rest)

/-- The spec-side label for cursor value n: the rendering of the style
at n (with the mathematical n mod 26 for the alphabetic styles and the
classical Roman encoding), before the ordinal suffix. -/
def specLabel (style : NumberingStyle) (n : Int) : List Char :=
  match style with
  | .decimal => intStr n
  | .lowerAlpha => [Char.ofNat (97 + (n % 26).toNat)]
  | .upperAlpha => [Char.ofNat (65 + (n % 26).toNat)]
  | .lowerRoman => romanOf n
  | .upperRoman => (romanOf n).map Char.toUpper

/-- One text is a contiguous segment of another. -/
def SubSeg (a b : List Char) : Prop := ∃ u v, b = u ++ a ++ v

/-! Theorems.  Helper lemmas come first, then one theorem per claim,
with its witness or counterexample where required. -/

theorem matchDrop_eq [DecidableEq α] :
    ∀ (p s r : List α), matchDrop p s = some r → s = p ++ r := by
  intro p
  induction p with
  | nil =>
    intro s r h
    simp only [matchDrop, Option.some.injEq] at h
    simp [h]
  | cons a ps ih =>
    intro s r h
    cases s with
    | nil => simp [matchDrop] at h
    | cons c cs =>
      simp only [matchDrop] at h
      split at h
      · next heq => subst heq; simpa using ih cs r h
      · exact absurd h (by simp)

theorem nextCodeendGo_bound (probe : List Char) (inl : Bool) :
    ∀ (s : List Char) (i r : Nat), nextCodeendGo probe inl i s = some r →
      i + probe.length ≤ r := by
  intro s
  induction s with
  | nil => intro i r h; simp [nextCodeendGo] at h
  | cons c cs ih =>
    intro i r h
    simp only [nextCodeendGo] at h
    split at h
    · simp only [Option.some.injEq] at h; omega
    · split at h
      · exact absurd h (by simp)
      · have := ih (i + 1) r h; omega

theorem nextCodestart_nil : nextCodestart [] = none := rfl

theorem tryCode_some_rest (start : List Char) (kind : CodeKind) (chunk : TextChunk)
    (rest : List Char) (h : tryCode start kind = some (chunk, rest)) :
    ∃ pos, nextCodeend start kind = some pos ∧ 1 ≤ pos ∧ rest = start.drop pos := by
  unfold tryCode at h
  cases hne : nextCodeend start kind with
  | none => rw [hne] at h; simp at h
  | some pos =>
    rw [hne] at h
    simp only [Option.some_bind] at h
    cases hpl : parseLang ((start.take pos).drop (startSeq kind).length) with
    | none => rw [hpl] at h; simp at h
    | some lang =>
      rw [hpl] at h
      simp only [Option.map_some', Option.some.injEq, Prod.mk.injEq] at h
      refine ⟨pos, rfl, ?_, h.2.symm⟩
      have hb := nextCodeendGo_bound (endSeq kind) (kind = CodeKind.inline) start 0 pos hne
      have h1 : 1 ≤ (endSeq kind).length := by cases kind <;> decide
      omega

theorem tryCode_none_iff (start : List Char) (kind : CodeKind) :
    tryCode start kind = none ↔
      (nextCodeend start kind = none ∨
        ∃ pos, nextCodeend start kind = some pos ∧
          parseLang ((start.take pos).drop (startSeq kind).length) = none) := by
  unfold tryCode
  cases hne : nextCodeend start kind with
  | none => simp
  | some pos =>
    simp only [Option.some_bind, reduceCtorEq, false_or, Option.some.injEq]
    constructor
    · intro h
      refine ⟨pos, rfl, ?_⟩
      cases hpl : parseLang ((start.take pos).drop (startSeq kind).length) with
      | none => rfl
      | some lang => rw [hpl] at h; simp at h
    · rintro ⟨pos2, hp2, hpl⟩
      cases hp2
      rw [hpl]
      rfl

theorem slurpAuxF_congr :
    ∀ (f₁ f₂ : Nat) (s : List Char), s.length < f₁ → s.length < f₂ →
      slurpAuxF f₁ s = slurpAuxF f₂ s := by
  intro f₁
  induction f₁ with
  | zero => intro f₂ s h₁ _; omega
  | succ f ih =>
    intro f₂ s h₁ h₂
    cases f₂ with
    | zero => omega
    | succ g =>
      cases hcs : nextCodestart s with
      | none => simp only [slurpAuxF, hcs]
      | some pk =>
        obtain ⟨p, kind⟩ := pk
        have hne : s ≠ [] := by
          intro hnil
          rw [hnil, nextCodestart_nil] at hcs
          exact Option.noConfusion hcs
        have hlen1 : 1 ≤ s.length := List.length_pos.mpr hne
        have hseq : 1 ≤ (startSeq kind).length := by cases kind <;> decide
        cases htc : tryCode (s.drop p) kind with
        | some cr =>
          obtain ⟨chunk, rest⟩ := cr
          obtain ⟨pos, _, hpos1, hrest⟩ := tryCode_some_rest _ _ _ _ htc
          have hr : rest.length < s.length := by
            rw [hrest]
            simp only [List.length_drop]
            omega
          simp only [slurpAuxF, hcs, htc]
          rw [ih g rest (by omega) (by omega)]
        | none =>
          have hr : ((s.drop p).drop (startSeq kind).length).length < s.length := by
            simp only [List.length_drop]
            omega
          simp only [slurpAuxF, hcs, htc]
          rw [ih g _ (by omega) (by omega)]

/-- C1: convert_bbcode is claimed total and panic-free on every input,
but next_codeend slices the text at every byte index, which panics at
the first interior byte of a multi-byte character: on the input
[c=é[/c] the scanner finds an inline start at position 0 and the byte
loop then reaches index 4, the second byte of é, before any end
sequence or line break can stop it.  A second, ASCII-only panic
follows from the off-by-two position of next_codestart: on
[cx[c=q[/c]x the reported start 1 makes extract_inner slice with
inverted bounds (lower 10 above upper 6). -/
theorem c1_panic_evidence :
    utf8 (("[c=é[/c]").toList) = [91, 99, 61, 195, 169, 91, 47, 99, 93] ∧
    nextCodestart (("[c=é[/c]").toList) = some (0, CodeKind.inline) ∧
    nextCodeendB (utf8 (endSeq CodeKind.inline)) true 0 (utf8 (("[c=é[/c]").toList)) =
      Except.error () ∧
    nextCodestart (("[cx[c=q[/c]x").toList) = some (1, CodeKind.inline) ∧
    nextCodeend ((("[cx[c=q[/c]x").toList).drop 1) CodeKind.inline = some 10 ∧
    parseLang ((((("[cx[c=q[/c]x").toList).drop 1).take 10).drop 3) =
      some (("c=q[/c").toList) ∧
    (((((("[cx[c=q[/c]x").toList).drop 1).take 10).takeWhile (· ≠ ']')).length + 1 >
      (((("[cx[c=q[/c]x").toList).drop 1).take 10).length - (endSeq CodeKind.inline).length) :=
  ⟨by decide, by decide, rfl, by decide, by decide, by decide, by decide⟩

/-- C3 counterexample: the claim says the fallback emits the start
sequence token itself; because of the off-by-two recursion of
next_codestart, on [cx[c= the scanner reports an inline start at
position 1, falls back, and emits the three characters cx[ found
there — no chunk equal to the start sequence [c= is produced. -/
theorem c3_counterexample :
    nextCodestart (("[cx[c=").toList) = some (1, CodeKind.inline) ∧
    tryCode ((("[cx[c=").toList).drop 1) CodeKind.inline = none ∧
    slurpRaw (("[cx[c=").toList) =
      [.chars (("[").toList), .chars (("cx[").toList), .chars (("c=").toList)] ∧
    (∀ chunk ∈ slurpRaw (("[cx[c=").toList), chunk ≠ .chars (startSeq .inline)) :=
  ⟨by decide, by decide, by decide, by decide⟩

/-- C3 amended: whenever next_codestart reports a start (at its
possibly skewed position) and the code-span attempt fails — which
happens exactly when the end sequence is missing (for inline spans
also when a raw line break precedes it, making the search return
none) or the language cannot be parsed — the scanner raises no error:
it emits the start-sequence-sized slice found at the reported position
(equal to the start-sequence token itself whenever the position is
aligned) as plain text, resumes right after that slice, and the
remaining input is strictly shorter, so scanning always makes forward
progress. -/
theorem c3_fallback (content : List Char) (p : Nat) (kind : CodeKind)
    (h1 : nextCodestart content = some (p, kind))
    (h2 : tryCode (content.drop p) kind = none) :
    slurpRaw content =
      .chars (content.take p) ::
        .chars ((content.drop p).take (startSeq kind).length) ::
          slurpRaw ((content.drop p).drop (startSeq kind).length) ∧
    ((content.drop p).drop (startSeq kind).length).length < content.length ∧
    (tryCode (content.drop p) kind = none ↔
      (nextCodeend (content.drop p) kind = none ∨
        ∃ pos, nextCodeend (content.drop p) kind = some pos ∧
          parseLang (((content.drop p).take pos).drop (startSeq kind).length) = none)) := by
  have hne : content ≠ [] := by
    intro hnil
    rw [hnil, nextCodestart_nil] at h1
    exact Option.noConfusion h1
  have hlen1 : 1 ≤ content.length := List.length_pos.mpr hne
  have hseq : 1 ≤ (startSeq kind).length := by cases kind <;> decide
  have hr : ((content.drop p).drop (startSeq kind).length).length < content.length := by
    simp only [List.length_drop]
    omega
  refine ⟨?_, hr, tryCode_none_iff _ _⟩
  show slurpAuxF (content.length + 1) content = _
  simp only [slurpAuxF, h1, h2]
  congr 2
  exact slurpAuxF_congr content.length
    (((content.drop p).drop (startSeq kind).length).length + 1) _ (by omega) (by omega)

/-- C3 witness input: an inline start with no end sequence at all. -/
theorem c3_fallback_witness :
    nextCodestart (("[c=x").toList) = some (0, CodeKind.inline) ∧
    tryCode ((("[c=x").toList).drop 0) CodeKind.inline = none ∧
    slurpRaw (("[c=x").toList) =
      .chars ((("[c=x").toList).take 0) ::
        .chars (((("[c=x").toList).drop 0).take (startSeq .inline).length) ::
          slurpRaw (((("[c=x").toList).drop 0).drop (startSeq .inline).length) :=
  ⟨by decide, by decide, (c3_fallback (("[c=x").toList) 0 .inline (by decide) (by decide)).1⟩

theorem writeS_inv (es : EmitState) (frag : List Char) : StateInv (writeS es frag) := by
  intro h
  simp only [writeS] at h ⊢
  have h2 : frag.getLast? = some '\n' := by simpa using h
  right
  have hfe : frag ≠ [] := by
    intro hx
    rw [hx] at h2
    simp at h2
  rw [List.getLast?_append_of_ne_nil _ hfe]
  exact h2

theorem emit_inv (es : EmitState) (hInv : StateInv es) (ev : BBEvent) :
    StateInv (emitEvent es ev) := by
  cases ev with
  | startT tag =>
    cases tag with
    | paragraph => exact hInv
    | other => exact hInv
    | list st =>
      cases st with
      | none => exact writeS_inv _ _
      | some n =>
        simp only [emitEvent, startTagE]
        split
        · exact writeS_inv _ _
        · exact writeS_inv _ _
    | heading => exact writeS_inv _ _
    | blockQuote => exact writeS_inv _ _
    | codeBlock info => exact writeS_inv _ _
    | item => exact writeS_inv _ _
    | emphasis => exact writeS_inv _ _
    | strong => exact writeS_inv _ _
    | strikethrough => exact writeS_inv _ _
    | link dest => exact writeS_inv _ _
    | image dest => exact writeS_inv _ _
  | endT tag =>
    cases tag with
    | paragraph => exact writeS_inv _ _
    | other => exact hInv
    | item => exact hInv
    | image dest => exact hInv
    | list st => exact writeS_inv _ _
    | codeBlock info => exact writeS_inv _ _
    | heading => exact writeS_inv _ _
    | blockQuote => exact writeS_inv _ _
    | emphasis => exact writeS_inv _ _
    | strong => exact writeS_inv _ _
    | strikethrough => exact writeS_inv _ _
    | link dest => exact writeS_inv _ _
  | text t => exact writeS_inv _ _
  | codeEv t => exact writeS_inv _ _
  | softBreak => exact writeS_inv _ _
  | hardBreak => exact writeS_inv _ _
  | rule => exact writeS_inv _ _
  | otherEv => exact hInv

/-- C9: the at_newline state means the output is at a fresh line, it
is preserved by every event, and the item marker write first breaks
the line unless the output is already at a fresh line, so the [*] of a
Start(Item) always begins a line and leaves at_newline false —
consecutive Item events therefore never put two bullet markers on one
output line. -/
theorem c9_item_fresh_line (es : EmitState) (hInv : StateInv es) :
    (∀ ev, StateInv (emitEvent es ev)) ∧
    ∃ pad, emitEvent es (.startT .item) = ⟨es.out ++ pad ++ (("[*]").toList), false⟩ ∧
      ((pad = [] ∧ es.atNewline = true) ∨ (pad = ['\n'] ∧ es.atNewline = false)) ∧
      (es.out ++ pad = [] ∨ (es.out ++ pad).getLast? = some '\n') := by
  refine ⟨emit_inv es hInv, ?_⟩
  by_cases h : es.atNewline
  · refine ⟨[], ?_, .inl ⟨rfl, h⟩, by simpa using hInv h⟩
    simp [emitEvent, startTagE, ensureNewline, h, writeS]
  · refine ⟨['\n'], ?_, .inr ⟨rfl, by simpa using h⟩, ?_⟩
    · simp [emitEvent, startTagE, ensureNewline, h, writeS]
    · right
      rw [List.getLast?_append_of_ne_nil _ (by simp)]
      rfl

/-- C9 witness: a state with pending text on the current line. -/
theorem c9_item_fresh_line_witness :
    StateInv ⟨("x").toList, false⟩ ∧
    ((∀ ev, StateInv (emitEvent ⟨("x").toList, false⟩ ev)) ∧
      ∃ pad, emitEvent ⟨("x").toList, false⟩ (.startT .item) =
          ⟨(("x").toList) ++ pad ++ (("[*]").toList), false⟩ ∧
        ((pad = [] ∧ (EmitState.mk (("x").toList) false).atNewline = true) ∨
          (pad = ['\n'] ∧ (EmitState.mk (("x").toList) false).atNewline = false)) ∧
        ((("x").toList) ++ pad = [] ∨ ((("x").toList) ++ pad).getLast? = some '\n')) :=
  ⟨fun h => by simp at h, c9_item_fresh_line _ (fun h => by simp at h)⟩

theorem foldl_append_eq (f : TextChunk → List Char) :
    ∀ (chunks : List TextChunk) (init : List Char),
      chunks.foldl (fun s blk => s ++ f blk) init = init ++ (chunks.map f).flatten := by
  intro chunks
  induction chunks with
  | nil => intro init; simp
  | cons c cs ih => intro init; simp [ih, List.append_assoc]

theorem subseg_flatten (f : TextChunk → List Char) (x : TextChunk) :
    ∀ (xs : List TextChunk), x ∈ xs → SubSeg (f x) ((xs.map f).flatten) := by
  intro xs
  induction xs with
  | nil => intro h; cases h
  | cons y ys ih =>
    intro h
    rcases List.mem_cons.mp h with h1 | h2
    · subst h1
      exact ⟨[], (ys.map f).flatten, by simp⟩
    · obtain ⟨u, v, huv⟩ := ih h2
      exact ⟨f y ++ u, v, by simp [huv, List.append_assoc]⟩

theorem toMarkdown_flatten (content : List Char) :
    toMarkdown content = ((slurpCodetags content).map renderChunk).flatten := by
  unfold toMarkdown convertBBCode
  rw [foldl_append_eq]
  rfl

theorem subseg_trans {a b c : List Char} (h1 : SubSeg a b) (h2 : SubSeg b c) :
    SubSeg a c := by
  obtain ⟨u, v, rfl⟩ := h1
  obtain ⟨u2, v2, rfl⟩ := h2
  exact ⟨u2 ++ u, v ++ v2, by simp [List.append_assoc]⟩

theorem subseg_code (k : CodeKind) (l : Option (List Char)) (c : List Char) :
    SubSeg c (codeStr k l c) := by
  cases k with
  | inline => exact ⟨btick, btick, rfl⟩
  | multiline =>
    refine ⟨btick ++ btick ++ btick ++ l.getD [] ++ ['\n'],
      '\n' :: (btick ++ btick ++ btick ++ ['\n']), ?_⟩
    simp [codeStr, List.append_assoc]

/-- C2: the cascade is applied only to plain-text chunks — a code
chunk is rendered by code_str, whose output embeds the scanned body
verbatim — so the body of every successfully scanned code span occurs
unmodified, inside its backtick or fence rendering, as a contiguous
segment of the conversion output. -/
theorem c2_code_span_opacity (content : List Char) (k : CodeKind)
    (l : Option (List Char)) (c : List Char)
    (hmem : TextChunk.code k l c ∈ slurpCodetags content) :
    SubSeg (codeStr k l c) (toMarkdown content) ∧ SubSeg c (toMarkdown content) := by
  have h1 : SubSeg (codeStr k l c) (toMarkdown content) := by
    rw [toMarkdown_flatten]
    exact subseg_flatten renderChunk _ _ hmem
  exact ⟨h1, subseg_trans (subseg_code k l c) h1⟩

/-- C2 witness: an inline code span whose body is the reserved
sequence [b]t[/b]. -/
theorem c2_code_span_opacity_witness :
    TextChunk.code .inline (some (("x").toList)) (("[b]t[/b]").toList) ∈
      slurpCodetags (("[c=\"x\"][b]t[/b][/c]").toList) ∧
    SubSeg (codeStr .inline (some (("x").toList)) (("[b]t[/b]").toList))
      (toMarkdown (("[c=\"x\"][b]t[/b][/c]").toList)) ∧
    SubSeg (("[b]t[/b]").toList) (toMarkdown (("[c=\"x\"][b]t[/b][/c]").toList)) :=
  ⟨by decide,
    (c2_code_span_opacity (("[c=\"x\"][b]t[/b][/c]").toList) .inline
      (some (("x").toList)) (("[b]t[/b]").toList) (by decide)).1,
    (c2_code_span_opacity (("[c=\"x\"][b]t[/b][/c]").toList) .inline
      (some (("x").toList)) (("[b]t[/b]").toList) (by decide)).2⟩

/-- C10: code_str ignores the language of an inline span entirely —
every successfully scanned inline span is rendered as its body between
single backticks, identically for every label value, so the label
(default or not) never influences the inline Markdown output. -/
theorem c10_inline_label_discarded (content : List Char) (l : Option (List Char))
    (c : List Char)
    (hmem : TextChunk.code .inline l c ∈ slurpCodetags content) :
    SubSeg (btick ++ c ++ btick) (toMarkdown content) ∧
    (∀ l₂ c₂, codeStr .inline l₂ c₂ = btick ++ c₂ ++ btick) := by
  refine ⟨?_, fun _ _ => rfl⟩
  rw [toMarkdown_flatten]
  exact subseg_flatten renderChunk _ _ hmem

/-- C10 witness: an inline code span with a non-default label. -/
theorem c10_inline_label_discarded_witness :
    TextChunk.code .inline (some (("q").toList)) (("Y").toList) ∈
      slurpCodetags (("[c=q]Y[/c]").toList) ∧
    SubSeg (btick ++ (("Y").toList) ++ btick) (toMarkdown (("[c=q]Y[/c]").toList)) :=
  ⟨by decide, (c10_inline_label_discarded (("[c=q]Y[/c]").toList)
    (some (("q").toList)) (("Y").toList) (by decide)).1⟩

/-- C4 counterexample: the source keys the collected attribute tokens
by the whole token, not by the attribute name, so type="a" type="i"
leaves two distinct elements in the set; folding them in the order
LowerRoman then LowerAlpha — a permutation of the set contents that
the unspecified HashSet iteration may produce — yields the LowerAlpha
style, not LowerRoman. -/
theorem c4_counterexample :
    listHeadElems ((" type=\"a\" type=\"i\"").toList) =
      some [ListHeadElement.type .lowerAlpha, ListHeadElement.type .lowerRoman] ∧
    ([ListHeadElement.type .lowerAlpha, ListHeadElement.type .lowerRoman]).dedup =
      [ListHeadElement.type .lowerAlpha, ListHeadElement.type .lowerRoman] ∧
    List.Perm [ListHeadElement.type .lowerRoman, ListHeadElement.type .lowerAlpha]
      [ListHeadElement.type .lowerAlpha, ListHeadElement.type .lowerRoman] ∧
    resolveElems [ListHeadElement.type .lowerRoman, ListHeadElement.type .lowerAlpha] =
      ⟨.ordered .lowerAlpha, 0⟩ ∧
    ListType.ordered .lowerAlpha ≠ ListType.ordered .lowerRoman :=
  ⟨by decide, by decide,
    List.Perm.swap (ListHeadElement.type .lowerAlpha) (ListHeadElement.type .lowerRoman) [],
    by decide, by decide⟩

theorem pair_perm [DecidableEq α] {a b : α} (hab : a ≠ b) :
    ∀ {l : List α}, l.Perm [a, b] → l = [a, b] ∨ l = [b, a] := by
  intro l h
  have hlen : l.length = 2 := by simpa using h.length_eq
  cases l with
  | nil => simp at hlen
  | cons x t =>
    cases t with
    | nil => simp at hlen
    | cons y t2 =>
      cases t2 with
      | cons z t3 => simp at hlen
      | nil =>
        have hx : x ∈ ([a, b] : List α) := h.subset (by simp)
        have hbmem : b ∈ [x, y] := (h.mem_iff).mpr (by simp)
        have hamem : a ∈ [x, y] := (h.mem_iff).mpr (by simp)
        rcases List.mem_pair.mp hx with h1 | h1
        · rcases List.mem_pair.mp hbmem with h2 | h2
          · exact absurd (h2.trans h1) hab.symm
          · exact .inl (by rw [h1, ← h2])
        · rcases List.mem_pair.mp hamem with h2 | h2
          · exact absurd (h2.trans h1) hab
          · exact .inr (by rw [h1, ← h2])

/-- C4 amended: duplicate list attributes collapse only when the whole
token is identical; with type="a" type="i" both style elements stay in
the collected set, and the resulting style is whichever of the two the
unspecified set-iteration order folds last — LowerAlpha or LowerRoman,
not deterministically LowerRoman. -/
theorem c4_duplicate_type_orders (es perm : List ListHeadElement)
    (h1 : listHeadElems ((" type=\"a\" type=\"i\"").toList) = some es)
    (h2 : perm.Perm es.dedup) :
    (resolveElems perm).ltype = ListType.ordered .lowerAlpha ∨
    (resolveElems perm).ltype = ListType.ordered .lowerRoman := by
  have hes : es = [ListHeadElement.type .lowerAlpha, ListHeadElement.type .lowerRoman] := by
    have h0 : listHeadElems ((" type=\"a\" type=\"i\"").toList) =
        some [ListHeadElement.type .lowerAlpha, ListHeadElement.type .lowerRoman] := by decide
    rw [h0] at h1
    exact (Option.some.inj h1).symm
  subst hes
  rw [show ([ListHeadElement.type .lowerAlpha, ListHeadElement.type .lowerRoman]).dedup =
    [ListHeadElement.type .lowerAlpha, ListHeadElement.type .lowerRoman] from by decide] at h2
  rcases pair_perm (by decide) h2 with h3 | h3 <;> rw [h3]
  · right
    decide
  · left
    decide

/-- C4 witness: the textual iteration order. -/
theorem c4_duplicate_type_orders_witness :
    listHeadElems ((" type=\"a\" type=\"i\"").toList) =
      some [ListHeadElement.type .lowerAlpha, ListHeadElement.type .lowerRoman] ∧
    List.Perm [ListHeadElement.type .lowerAlpha, ListHeadElement.type .lowerRoman]
      (([ListHeadElement.type .lowerAlpha, ListHeadElement.type .lowerRoman]).dedup) ∧
    ((resolveElems [ListHeadElement.type .lowerAlpha, ListHeadElement.type .lowerRoman]).ltype =
        ListType.ordered .lowerAlpha ∨
      (resolveElems [ListHeadElement.type .lowerAlpha, ListHeadElement.type .lowerRoman]).ltype =
        ListType.ordered .lowerRoman) := by
  have hd : ([ListHeadElement.type .lowerAlpha, ListHeadElement.type .lowerRoman]).dedup =
      [ListHeadElement.type .lowerAlpha, ListHeadElement.type .lowerRoman] := by decide
  have hp : List.Perm [ListHeadElement.type .lowerAlpha, ListHeadElement.type .lowerRoman]
      (([ListHeadElement.type .lowerAlpha, ListHeadElement.type .lowerRoman]).dedup) := by
    rw [hd]
  exact ⟨by decide, hp, c4_duplicate_type_orders _ _ (by decide) hp⟩

/-- C6 counterexample: the cursor is an i16, so after producing the
label for 32767 it does not increase by one — it overflows (panicking
in debug builds, wrapping to -32768 in release builds, as modelled). -/
theorem c6_counterexample :
    numNext .decimal 32767 = ((("32767. ").toList), -32768) ∧
    (-32768 : Int) ≠ 32767 + 1 :=
  ⟨by decide, by decide⟩

theorem wrap16_eq {x : Int} (h1 : -32768 ≤ x) (h2 : x ≤ 32767) : wrap16 x = x := by
  unfold wrap16
  rw [Int.emod_eq_of_lt (by omega) (by omega)]
  omega

theorem numRender_ofNat (style : NumberingStyle) (m : Nat) :
    numRender style (m : Int) = specLabel style (m : Int) := by
  cases style with
    | decimal => rfl
    | lowerRoman => rfl
    | upperRoman => rfl
    | lowerAlpha =>
      show [Char.ofNat ((toU8 (Int.tmod (Int.ofNat m) 26) + 97) % 256)] =
        [Char.ofNat (97 + ((Int.ofNat m % 26).toNat))]
      have ht : Int.tmod (Int.ofNat m) 26 = Int.ofNat (m % 26) := rfl
      have he : (Int.ofNat m) % 26 = Int.ofNat (m % 26) := rfl
      rw [ht, he]
      unfold toU8
      have h3 : (Int.ofNat (m % 26)) % 256 = Int.ofNat (m % 26 % 256) := rfl
      rw [h3]
      have h26 : m % 26 < 26 := Nat.mod_lt _ (by omega)
      have h4 : ((Int.ofNat (m % 26 % 256)).toNat + 97) % 256 =
          97 + (Int.ofNat (m % 26)).toNat := by omega
      rw [h4]
    | upperAlpha =>
      show [Char.ofNat ((toU8 (Int.tmod (Int.ofNat m) 26) + 65) % 256)] =
        [Char.ofNat (65 + ((Int.ofNat m % 26).toNat))]
      have ht : Int.tmod (Int.ofNat m) 26 = Int.ofNat (m % 26) := rfl
      have he : (Int.ofNat m) % 26 = Int.ofNat (m % 26) := rfl
      rw [ht, he]
      unfold toU8
      have h3 : (Int.ofNat (m % 26)) % 256 = Int.ofNat (m % 26 % 256) := rfl
      rw [h3]
      have h26 : m % 26 < 26 := Nat.mod_lt _ (by omega)
      have h4 : ((Int.ofNat (m % 26 % 256)).toNat + 65) % 256 =
          65 + (Int.ofNat (m % 26)).toNat := by omega
      rw [h4]

/-- C6 amended: for every cursor value n in the overflow-free range
0 <= n < 32767, the generated label is the rendering of the style at n
followed by the ordinal suffix - the decimal string for Decimal, the
single letter indexed by n mod 26 (never a multi-letter label) for
the alphabetic styles, the classical Roman numeral for the Roman
styles - and the cursor then increases by exactly one; at n = 32767
the i16 increment overflows instead. -/
theorem c6_label_and_cursor (style : NumberingStyle) (n : Int) (h0 : 0 ≤ n)
    (h1 : n < 32767) :
    numNext style n = (specLabel style n ++ (". ").toList, n + 1) := by
  have hwrap : wrap16 (n + 1) = n + 1 := wrap16_eq (by omega) (by omega)
  unfold numNext
  rw [hwrap]
  obtain ⟨m, rfl⟩ := Int.eq_ofNat_of_zero_le h0
  rw [numRender_ofNat]

/-- C6 witness: the 28th cursor value of the lower alphabetic style
wraps around the alphabet. -/
theorem c6_label_and_cursor_witness :
    (0 : Int) ≤ 27 ∧ (27 : Int) < 32767 ∧
    numNext .lowerAlpha 27 = (specLabel .lowerAlpha 27 ++ (". ").toList, 27 + 1) ∧
    specLabel .lowerAlpha 27 ++ (". ").toList = ("b. ").toList :=
  ⟨by decide, by decide, c6_label_and_cursor .lowerAlpha 27 (by decide) (by decide),
    by decide⟩

/-- C7 counterexample: the claim says the entire matched list block,
head and body verbatim, is left untouched when the head fails to
parse; but only the list rule passes it through — the earlier cascade
rules still rewrite the body, so [list z][b]y[/b][/list] does not
convert to itself. -/
theorem c7_counterexample :
    toMarkdownList ((" z").toList) (("[b]y[/b]").toList) = none ∧
    toMarkdown (("[list z][b]y[/b][/list]").toList) =
      (("[list z]**y**[/list]").toList) ∧
    toMarkdown (("[list z][b]y[/b][/list]").toList) ≠
      (("[list z][b]y[/b][/list]").toList) :=
  ⟨by decide, by decide, by decide⟩

/-- C7 amended: when list-attribute parsing fails the list rule
produces no error and emits the whole matched block unchanged, so the
block passes through the list rule verbatim; the earlier cascade rules
may still have rewritten the body, hence a malformed list block
converts to itself verbatim exactly when no earlier rule matches
inside it, as with the body [*]one. -/
theorem c7_unparsable_head_passthrough :
    (∀ content, toMarkdownList ((" z").toList) content = none) ∧
    toMarkdown (("[list z][*]one[/list]").toList) =
      (("[list z][*]one[/list]").toList) ∧
    toMarkdown (("[list z][b]y[/b][/list]").toList) =
      (("[list z]**y**[/list]").toList) := by
  refine ⟨fun content => ?_, by decide, by decide⟩
  unfold toMarkdownList
  rw [show listHeadDet ((" z").toList) = none from by decide]
  rfl

theorem matchDrop_append [DecidableEq α] : ∀ (p r : List α), matchDrop p (p ++ r) = some r := by
  intro p r
  induction p with
  | nil => rfl
  | cons a ps ih => simp [matchDrop, ih]

theorem takeWhile_app (P : Char → Bool) :
    ∀ (w s : List Char), (∀ c ∈ w, P c = true) → s.takeWhile P = [] →
      (w ++ s).takeWhile P = w ∧ (w ++ s).dropWhile P = s := by
  intro w
  induction w with
  | nil =>
    intro s _ hs
    refine ⟨hs, ?_⟩
    cases s with
    | nil => rfl
    | cons c cs =>
      simp only [List.takeWhile_cons] at hs
      split at hs
      · exact absurd hs (by simp)
      · next hPc => simp [List.dropWhile_cons, hPc]
  | cons c w' ih =>
    intro s hw hs
    have hPc : P c = true := hw c (by simp)
    have := ih s (fun d hd => hw d (by simp [hd])) hs
    simp [List.takeWhile_cons, List.dropWhile_cons, hPc, this.1, this.2]

theorem mem_of_mem_takeWhile (P : Char → Bool) :
    ∀ (l : List Char) (c : Char), c ∈ l.takeWhile P → P c = true := by
  intro l
  induction l with
  | nil => intro c h; simp at h
  | cons a l' ih =>
    intro c h
    simp only [List.takeWhile_cons] at h
    split at h
    · next hPa =>
      rcases List.mem_cons.mp h with rfl | h2
      · exact hPa
      · exact ih c h2
    · simp at h

theorem mem_of_mem_dropWhile (P : Char → Bool) :
    ∀ (l : List Char) (c : Char), c ∈ l.dropWhile P → c ∈ l := by
  intro l
  induction l with
  | nil => intro c h; simp at h
  | cons a l' ih =>
    intro c h
    simp only [List.dropWhile_cons] at h
    split at h
    · exact List.mem_cons.mpr (.inr (ih c h))
    · exact h

theorem startSpecP_some {s : List Char} {v : Int} {r : List Char}
    (h : startSpecP s = some (v, r)) :
    ∃ ds, s = (("start=\"").toList) ++ ds ++ ['"'] ++ r ∧ ds ≠ [] ∧
      (∀ c ∈ ds, c.isDigit = true) ∧ digitsVal ds ≤ 32767 := by
  unfold startSpecP at h
  cases hm : matchDrop ((("start=\"").toList)) s with
  | none => rw [hm] at h; simp at h
  | some s3 =>
    rw [hm] at h
    simp only [Option.some_bind] at h
    split at h
    · exact absurd h (by simp)
    · next hds =>
      split at h
      · next hval =>
        cases hq : matchDrop (['"']) (s3.dropWhile Char.isDigit) with
        | none => rw [hq] at h; simp at h
        | some s4 =>
          rw [hq] at h
          simp only [Option.map_some', Option.some.injEq, Prod.mk.injEq] at h
          refine ⟨s3.takeWhile Char.isDigit, ?_, hds, ?_, hval⟩
          · have h1 := matchDrop_eq _ _ _ hm
            have h2 := matchDrop_eq _ _ _ hq
            have h3 := List.takeWhile_append_dropWhile Char.isDigit s3
            rw [h.2] at h2
            calc s = (("start=\"").toList) ++ s3 := h1
              _ = (("start=\"").toList) ++
                  (s3.takeWhile Char.isDigit ++ s3.dropWhile Char.isDigit) := by rw [h3]
              _ = (("start=\"").toList) ++ s3.takeWhile Char.isDigit ++ ['"'] ++ r := by
                  rw [h2]; simp [List.append_assoc]
          · exact fun c hc => mem_of_mem_takeWhile Char.isDigit s3 c hc
      · exact absurd h (by simp)

theorem olType_some {s : List Char} {p : NumberingStyle × List Char}
    (h : olType s = some p) :
    ∃ c, s = c :: p.2 ∧ c ∈ ['1', 'a', 'A', 'i', 'I'] := by
  cases s with
  | nil => exact absurd h (by simp [olType])
  | cons c r =>
    simp only [olType] at h
    refine ⟨c, ?_, ?_⟩
    · by_cases h1 : c = '1'
      · rw [if_pos h1] at h
        rw [← Option.some.inj h]
      · rw [if_neg h1] at h
        by_cases h2 : c = 'a'
        · rw [if_pos h2] at h
          rw [← Option.some.inj h]
        · rw [if_neg h2] at h
          by_cases h3 : c = 'A'
          · rw [if_pos h3] at h
            rw [← Option.some.inj h]
          · rw [if_neg h3] at h
            by_cases h4 : c = 'i'
            · rw [if_pos h4] at h
              rw [← Option.some.inj h]
            · rw [if_neg h4] at h
              by_cases h5 : c = 'I'
              · rw [if_pos h5] at h
                rw [← Option.some.inj h]
              · rw [if_neg h5] at h
                exact absurd h (by simp)
    · by_cases h1 : c = '1'
      · simp [h1]
      · rw [if_neg h1] at h
        by_cases h2 : c = 'a'
        · simp [h2]
        · rw [if_neg h2] at h
          by_cases h3 : c = 'A'
          · simp [h3]
          · rw [if_neg h3] at h
            by_cases h4 : c = 'i'
            · simp [h4]
            · rw [if_neg h4] at h
              by_cases h5 : c = 'I'
              · simp [h5]
              · rw [if_neg h5] at h
                exact absurd h (by simp)

theorem typeSpecP_some {s : List Char} {ty : NumberingStyle} {r : List Char}
    (h : typeSpecP s = some (ty, r)) :
    ∃ c, s = (("type=\"").toList) ++ [c, '"'] ++ r ∧ c ∈ ['1', 'a', 'A', 'i', 'I'] := by
  unfold typeSpecP at h
  cases hm : matchDrop ((("type=\"").toList)) s with
  | none => rw [hm] at h; simp at h
  | some s2 =>
    rw [hm] at h
    simp only [Option.some_bind] at h
    cases ho : olType s2 with
    | none => rw [ho] at h; simp at h
    | some p =>
      rw [ho] at h
      simp only [Option.some_bind] at h
      cases hq : matchDrop (['"']) p.2 with
      | none => rw [hq] at h; simp at h
      | some s4 =>
        rw [hq] at h
        simp only [Option.map_some', Option.some.injEq, Prod.mk.injEq] at h
        obtain ⟨c, hc1, hc2⟩ := olType_some ho
        refine ⟨c, ?_, hc2⟩
        have h1 := matchDrop_eq _ _ _ hm
        have h2 := matchDrop_eq _ _ _ hq
        rw [h.2] at h2
        calc s = (("type=\"").toList) ++ s2 := h1
          _ = (("type=\"").toList) ++ (c :: p.2) := by rw [hc1]
          _ = (("type=\"").toList) ++ [c, '"'] ++ r := by rw [h2]; simp

theorem tokenP_some {s : List Char} {e : ListHeadElement} {r : List Char}
    (h : tokenP s = some (e, r)) :
    ∃ w t, s = w ++ t ++ r ∧ w ≠ [] ∧ (∀ c ∈ w, isSpaceTab c = true) ∧ AttrTok t := by
  unfold tokenP at h
  split at h
  · exact absurd h (by simp)
  · next hws =>
    have hsw : s.takeWhile isSpaceTab ++ s.dropWhile isSpaceTab = s :=
      List.takeWhile_append_dropWhile isSpaceTab s
    cases hss : startSpecP (s.dropWhile isSpaceTab) with
    | some vr =>
      obtain ⟨v, r1⟩ := vr
      rw [hss] at h
      simp only [Option.some.injEq, Prod.mk.injEq] at h
      obtain ⟨ds, hdw, hne, hdig, hval⟩ := startSpecP_some hss
      refine ⟨s.takeWhile isSpaceTab, (("start=\"").toList) ++ ds ++ ['"'], ?_, hws, ?_, ?_⟩
      · rw [h.2] at hdw
        calc s = s.takeWhile isSpaceTab ++ s.dropWhile isSpaceTab := hsw.symm
          _ = s.takeWhile isSpaceTab ++ ((("start=\"").toList) ++ ds ++ ['"'] ++ r) := by
              rw [hdw]
          _ = s.takeWhile isSpaceTab ++ ((("start=\"").toList) ++ ds ++ ['"']) ++ r := by
              simp [List.append_assoc]
      · exact fun c hc => mem_of_mem_takeWhile isSpaceTab s c hc
      · exact AttrTok.startTok ds hne hdig hval
    | none =>
      rw [hss] at h
      cases hts : typeSpecP (s.dropWhile isSpaceTab) with
      | none => rw [hts] at h; simp at h
      | some tr =>
        obtain ⟨ty, r1⟩ := tr
        rw [hts] at h
        simp only [Option.some.injEq, Prod.mk.injEq] at h
        obtain ⟨c, hdw, hc⟩ := typeSpecP_some hts
        refine ⟨s.takeWhile isSpaceTab, (("type=\"").toList) ++ [c, '"'], ?_, hws, ?_, ?_⟩
        · rw [h.2] at hdw
          calc s = s.takeWhile isSpaceTab ++ s.dropWhile isSpaceTab := hsw.symm
            _ = s.takeWhile isSpaceTab ++ ((("type=\"").toList) ++ [c, '"'] ++ r) := by
                rw [hdw]
            _ = s.takeWhile isSpaceTab ++ ((("type=\"").toList) ++ [c, '"']) ++ r := by
                simp [List.append_assoc]
        · exact fun d hd => mem_of_mem_takeWhile isSpaceTab s d hd
        · exact AttrTok.typeTok c hc

theorem tokenP_shrink {s : List Char} {e : ListHeadElement} {r : List Char}
    (h : tokenP s = some (e, r)) : r.length < s.length := by
  obtain ⟨w, t, heq, hw, _, _⟩ := tokenP_some h
  subst heq
  simp only [List.length_append]
  cases w with
  | nil => exact absurd rfl hw
  | cons a w' => simp only [List.length_cons]; omega

theorem foldTokensF_congr :
    ∀ (f₁ f₂ : Nat) (s : List Char), s.length < f₁ → s.length < f₂ →
      foldTokensF f₁ s = foldTokensF f₂ s := by
  intro f₁
  induction f₁ with
  | zero => intro f₂ s h₁ _; omega
  | succ f ih =>
    intro f₂ s h₁ h₂
    cases f₂ with
    | zero => omega
    | succ g =>
      cases ht : tokenP s with
      | none => simp only [foldTokensF, ht]
      | some er =>
        obtain ⟨e, r⟩ := er
        have hr := tokenP_shrink ht
        simp only [foldTokensF, ht]
        rw [ih g r (by omega) (by omega)]

theorem attrLang_of_fold :
    ∀ (fuel : Nat) (s : List Char), s.length < fuel →
      allWs (foldTokensF fuel s).2 = true → AttrLang s := by
  intro fuel
  induction fuel with
  | zero => intro s h; omega
  | succ f ih =>
    intro s hlen h
    cases ht : tokenP s with
    | none =>
      simp only [foldTokensF, ht] at h
      exact AttrLang.trailing s (by simpa [allWs, List.all_eq_true] using h)
    | some er =>
      obtain ⟨e, r⟩ := er
      obtain ⟨w, t, hs, hw, hw2, htok⟩ := tokenP_some ht
      have hr := tokenP_shrink ht
      simp only [foldTokensF, ht] at h
      have hAL := ih r (by omega) h
      rw [hs]
      exact AttrLang.cons w t r hw hw2 htok hAL

theorem tokenP_none_of_trailing {s : List Char} (h : ∀ c ∈ s, rustWs c = true) :
    tokenP s = none := by
  unfold tokenP
  split
  · rfl
  · next hws =>
    have hmem : ∀ c ∈ s.dropWhile isSpaceTab, rustWs c = true :=
      fun c hc => h c (mem_of_mem_dropWhile isSpaceTab s c hc)
    have hss : startSpecP (s.dropWhile isSpaceTab) = none := by
      cases hx : startSpecP (s.dropWhile isSpaceTab) with
      | none => rfl
      | some vr =>
        obtain ⟨v, r⟩ := vr
        obtain ⟨ds, heq, _, _, _⟩ := startSpecP_some hx
        have hsmem : 's' ∈ s.dropWhile isSpaceTab := by
          rw [heq]
          simp only [List.mem_append]
          exact Or.inl (Or.inl (Or.inl (by decide)))
        exact absurd (hmem 's' hsmem) (by decide)
    have hts : typeSpecP (s.dropWhile isSpaceTab) = none := by
      cases hx : typeSpecP (s.dropWhile isSpaceTab) with
      | none => rfl
      | some tr =>
        obtain ⟨ty, r⟩ := tr
        obtain ⟨c, heq, _⟩ := typeSpecP_some hx
        have htmem : 't' ∈ s.dropWhile isSpaceTab := by
          rw [heq]
          simp only [List.mem_append]
          exact Or.inl (Or.inl (by decide))
        exact absurd (hmem 't' htmem) (by decide)
    rw [hss, hts]

theorem tokenP_app (w t rest : List Char) (hw : w ≠ [])
    (hw2 : ∀ c ∈ w, isSpaceTab c = true) (ht : AttrTok t) :
    ∃ e, tokenP (w ++ t ++ rest) = some (e, rest) := by
  have htw : (t ++ rest).takeWhile isSpaceTab = [] := by
    cases ht with
    | startTok ds h1 h2 h3 => rfl
    | typeTok c hc => rfl
  have hsplit := takeWhile_app isSpaceTab w (t ++ rest) hw2 htw
  rw [List.append_assoc]
  unfold tokenP
  rw [if_neg (by rw [hsplit.1]; exact hw), hsplit.2]
  cases ht with
  | startTok ds h1 h2 h3 =>
    have hs : startSpecP (((("start=\"").toList) ++ ds ++ ['"']) ++ rest) =
        some ((digitsVal ds : Int), rest) := by
      unfold startSpecP
      have hform : ((("start=\"").toList) ++ ds ++ ['"']) ++ rest =
          (("start=\"").toList) ++ (ds ++ ('"' :: rest)) := by
        simp [List.append_assoc]
      rw [hform, matchDrop_append]
      simp only [Option.some_bind]
      have hdq : ('"' :: rest).takeWhile Char.isDigit = [] := rfl
      have hdsplit := takeWhile_app Char.isDigit ds ('"' :: rest) h2 hdq
      rw [if_neg (by rw [hdsplit.1]; exact h1), if_pos (by rw [hdsplit.1]; exact h3),
        hdsplit.2]
      rw [show ('"' :: rest) = (['"'] ++ rest) from rfl, matchDrop_append]
      simp [hdsplit.1]
    rw [hs]
    exact ⟨.start (digitsVal ds : Int), rfl⟩
  | typeTok c hc =>
    have hstart : startSpecP (((("type=\"").toList) ++ [c, '"']) ++ rest) = none := rfl
    rw [hstart]
    have hc2 : c = '1' ∨ c = 'a' ∨ c = 'A' ∨ c = 'i' ∨ c = 'I' := by simpa using hc
    have hform : ((("type=\"").toList) ++ [c, '"']) ++ rest =
        (("type=\"").toList) ++ (c :: '"' :: rest) := by
      simp [List.append_assoc]
    rcases hc2 with rfl | rfl | rfl | rfl | rfl
    · have hts : typeSpecP (((("type=\"").toList) ++ ['1', '"']) ++ rest) =
          some (.decimal, rest) := by
        rw [hform]
        unfold typeSpecP
        rw [matchDrop_append]
        rfl
      rw [hts]
      exact ⟨.type .decimal, rfl⟩
    · have hts : typeSpecP (((("type=\"").toList) ++ ['a', '"']) ++ rest) =
          some (.lowerAlpha, rest) := by
        rw [hform]
        unfold typeSpecP
        rw [matchDrop_append]
        rfl
      rw [hts]
      exact ⟨.type .lowerAlpha, rfl⟩
    · have hts : typeSpecP (((("type=\"").toList) ++ ['A', '"']) ++ rest) =
          some (.upperAlpha, rest) := by
        rw [hform]
        unfold typeSpecP
        rw [matchDrop_append]
        rfl
      rw [hts]
      exact ⟨.type .upperAlpha, rfl⟩
    · have hts : typeSpecP (((("type=\"").toList) ++ ['i', '"']) ++ rest) =
          some (.lowerRoman, rest) := by
        rw [hform]
        unfold typeSpecP
        rw [matchDrop_append]
        rfl
      rw [hts]
      exact ⟨.type .lowerRoman, rfl⟩
    · have hts : typeSpecP (((("type=\"").toList) ++ ['I', '"']) ++ rest) =
          some (.upperRoman, rest) := by
        rw [hform]
        unfold typeSpecP
        rw [matchDrop_append]
        rfl
      rw [hts]
      exact ⟨.type .upperRoman, rfl⟩

theorem fold_of_attrLang {s : List Char} (h : AttrLang s) :
    allWs (foldTokens s).2 = true := by
  induction h with
  | trailing s2 hws =>
    have ht : tokenP s2 = none := tokenP_none_of_trailing hws
    show allWs (foldTokensF (s2.length + 1) s2).2 = true
    simp only [foldTokensF, ht]
    simpa [allWs, List.all_eq_true] using hws
  | cons w t rest hw hw2 htok hrest ih =>
    obtain ⟨e, hte⟩ := tokenP_app w t rest hw hw2 htok
    show allWs (foldTokensF ((w ++ t ++ rest).length + 1) (w ++ t ++ rest)).2 = true
    simp only [foldTokensF, hte]
    have hlt : rest.length < (w ++ t ++ rest).length := by
      simp only [List.length_append]
      cases w with
      | nil => exact absurd rfl hw
      | cons a w' => simp only [List.length_cons]; omega
    rw [foldTokensF_congr ((w ++ t ++ rest).length) (rest.length + 1) rest (by omega)
      (by omega)]
    exact ih

/-- C8 counterexample: the claim grammar — tokens separated by
arbitrary whitespace, start values signed — accepts a type token
preceded by a newline and a negative start value, but the parser
rejects both: the nom space1 separator admits only spaces and tabs
and digit1 admits no sign, so the fold collects nothing and the
non-whitespace remainder fails the trailing check. -/
theorem c8_counterexample :
    AttrLangClaim (("\ntype=\"a\"").toList) ∧
    AttrLangClaim ((" start=\"-5\"").toList) ∧
    listHeadElems (("\ntype=\"a\"").toList) = none ∧
    listHeadElems ((" start=\"-5\"").toList) = none := by
  refine ⟨?_, ?_, by decide, by decide⟩
  · have h : ("\ntype=\"a\"").toList =
        ['\n'] ++ ((("type=\"").toList) ++ ['a', '"']) ++ [] := by decide
    rw [h]
    exact AttrLangClaim.cons _ _ _ (by decide) (by decide)
      (AttrTokClaim.typeTok 'a' (by decide)) (AttrLangClaim.trailing [] (by simp))
  · have h : (" start=\"-5\"").toList =
        [' '] ++ ((("start=\"").toList) ++ ['-'] ++ ['5'] ++ ['"']) ++ [] := by decide
    rw [h]
    refine AttrLangClaim.cons _ _ _ (by decide) (by decide) ?_
      (AttrLangClaim.trailing [] (by simp))
    exact AttrTokClaim.startTok ['-'] ['5'] (by simp) (by simp) (by decide)
      (by decide) (by decide)

/-- C8 (amended): the list-head parser accepts exactly this grammar —
zero or more recognized tokens (a quoted unsigned digit run whose
value parses as an i16 after start=, or a quoted numbering letter
after type=), each preceded by at least one space or tab, in any
order and any count — and fails exactly when non-whitespace trails
after the recognized tokens; the parser is a total function returning
an Option, so failure is a parse error, never a panic.  Separators
wider than space/tab (such as a newline) and signed start values,
which the original claim admits, are rejected. -/
theorem c8_attr_grammar (input : List Char) :
    (listHeadElems input).isSome = true ↔ AttrLang input := by
  constructor
  · intro h
    unfold listHeadElems at h
    split at h
    · next hc => exact attrLang_of_fold (input.length + 1) input (by omega) hc
    · simp at h
  · intro h
    have hc := fold_of_attrLang h
    unfold listHeadElems
    rw [if_pos hc]
    rfl

theorem bulletSplit_cons_pos {c : Char} {rest : List Char}
    (h : c = '[' ∧ rest.take 2 = ['*', ']']) :
    bulletSplit (c :: rest) = some ([], (rest.drop 2).dropWhile rustWs) := by
  simp only [bulletSplit]
  rw [if_pos h]

theorem bulletSplit_cons_neg {c : Char} {rest : List Char}
    (h : ¬(c = '[' ∧ rest.take 2 = ['*', ']'])) :
    bulletSplit (c :: rest) = (bulletSplit rest).map fun p => (c :: p.1, p.2) := by
  simp only [bulletSplit]
  rw [if_neg h]

theorem countBullets_cons_pos {c : Char} {rest : List Char}
    (h : c = '[' ∧ rest.take 2 = ['*', ']']) :
    countBullets (c :: rest) = countBullets (rest.drop 2) + 1 := by
  obtain ⟨rfl, h2⟩ := h
  cases rest with
  | nil => simp at h2
  | cons a rr =>
    cases rr with
    | nil => simp at h2
    | cons b rrr =>
      simp at h2
      obtain ⟨rfl, rfl⟩ := h2
      rfl

theorem countBullets_cons_neg {c : Char} {rest : List Char}
    (h : ¬(c = '[' ∧ rest.take 2 = ['*', ']'])) :
    countBullets (c :: rest) = countBullets rest := by
  rw [countBullets.eq_def]
  split
  · next rr heq =>
    exfalso
    injection heq with h1 h2
    exact h ⟨h1, by rw [h2]; rfl⟩
  · next c2 rest2 heq =>
    injection heq with h1 h2
    rw [h2]
  · next heq => exact absurd heq (by simp)

theorem take2_append {u X : List Char} (h : u.take 2 = ['*', ']']) :
    (u ++ X).take 2 = ['*', ']'] := by
  cases u with
  | nil => simp at h
  | cons a ur =>
    cases ur with
    | nil => simp at h
    | cons b urr =>
      simp at h ⊢
      exact h

theorem split_decomp :
    ∀ (s a b : List Char), bulletSplit s = some (a, b) →
      ∃ ws, s = a ++ ('[' :: '*' :: ']' :: ws) ++ b ∧ (∀ c ∈ ws, rustWs c = true) ∧
        bulletSplit a = none := by
  intro s
  induction s with
  | nil => intro a b h; simp [bulletSplit] at h
  | cons c rest ih =>
    intro a b h
    by_cases hc : c = '[' ∧ rest.take 2 = ['*', ']']
    · rw [bulletSplit_cons_pos hc] at h
      simp only [Option.some.injEq, Prod.mk.injEq] at h
      obtain ⟨ha, hb⟩ := h
      obtain ⟨rfl, h2⟩ := hc
      cases rest with
      | nil => simp at h2
      | cons x rr1 =>
        cases rr1 with
        | nil => simp at h2
        | cons y rr =>
          simp at h2
          obtain ⟨rfl, rfl⟩ := h2
          refine ⟨rr.takeWhile rustWs, ?_, ?_, ?_⟩
          · rw [← ha]
            simp only [List.nil_append, List.cons.injEq, true_and]
            have h3 := List.takeWhile_append_dropWhile rustWs rr
            rw [← hb]
            simp only [List.drop_succ_cons, List.drop_zero]
            rw [← h3]
            simp
          · exact fun d hd => mem_of_mem_takeWhile rustWs rr d hd
          · rw [← ha]; rfl
    · rw [bulletSplit_cons_neg hc] at h
      cases hr : bulletSplit rest with
      | none => rw [hr] at h; simp at h
      | some p =>
        obtain ⟨a2, b2⟩ := p
        rw [hr] at h
        simp only [Option.map_some', Option.some.injEq, Prod.mk.injEq] at h
        obtain ⟨ha, hb⟩ := h
        obtain ⟨ws, hdec, hws, hnone⟩ := ih a2 b2 hr
        refine ⟨ws, ?_, hws, ?_⟩
        · rw [← ha, ← hb, hdec]
          simp
        · rw [← ha]
          have hc2 : ¬(c = '[' ∧ a2.take 2 = ['*', ']']) := by
            rintro ⟨rfl, hta⟩
            exact hc ⟨rfl, by rw [hdec]; exact take2_append (by simpa using take2_append hta)⟩
          rw [bulletSplit_cons_neg hc2, hnone]
          rfl

theorem count_dropWhile_ws : ∀ (l : List Char),
    countBullets (l.dropWhile rustWs) = countBullets l := by
  intro l
  induction l with
  | nil => rfl
  | cons c rest ih =>
    by_cases hw : rustWs c = true
    · have hne : ¬(c = '[' ∧ rest.take 2 = ['*', ']']) := by
        rintro ⟨rfl, _⟩
        exact absurd hw (by decide)
      rw [List.dropWhile_cons_of_pos hw, ih, countBullets_cons_neg hne]
    · rw [List.dropWhile_cons_of_neg hw]

theorem count_split : ∀ (s a b : List Char), bulletSplit s = some (a, b) →
    countBullets s = countBullets b + 1 := by
  intro s
  induction s with
  | nil => intro a b h; simp [bulletSplit] at h
  | cons c rest ih =>
    intro a b h
    by_cases hc : c = '[' ∧ rest.take 2 = ['*', ']']
    · rw [bulletSplit_cons_pos hc] at h
      simp only [Option.some.injEq, Prod.mk.injEq] at h
      rw [countBullets_cons_pos hc, ← h.2, count_dropWhile_ws]
    · rw [bulletSplit_cons_neg hc] at h
      cases hr : bulletSplit rest with
      | none => rw [hr] at h; simp at h
      | some p =>
        rw [hr] at h
        simp only [Option.map_some', Option.some.injEq, Prod.mk.injEq] at h
        rw [countBullets_cons_neg hc, ih p.1 p.2 (by rw [hr]), h.2]

theorem split_of_count {t : List Char} (h : countBullets t = 0) : bulletSplit t = none := by
  cases hs : bulletSplit t with
  | none => rfl
  | some p =>
    have := count_split t p.1 p.2 (by rw [hs])
    omega

theorem split_length (s a b : List Char) (h : bulletSplit s = some (a, b)) :
    b.length + 3 ≤ s.length ∧ a.length + 3 ≤ s.length := by
  obtain ⟨ws, hdec, _, _⟩ := split_decomp s a b h
  rw [hdec]
  simp only [List.length_append, List.length_cons]
  omega

theorem clean_app_split : ∀ (u t : List Char), (∀ c ∈ u, cleanCh c = true) →
    bulletSplit (u ++ t) = (bulletSplit t).map fun p => (u ++ p.1, p.2) := by
  intro u
  induction u with
  | nil =>
    intro t _
    simp only [List.nil_append]
    cases h : bulletSplit t <;> simp [h]
  | cons c u2 ih =>
    intro t hu
    have hc : cleanCh c = true := hu c (by simp)
    have hcne : ¬(c = '[' ∧ (u2 ++ t).take 2 = ['*', ']']) := by
      rintro ⟨rfl, _⟩
      exact absurd hc (by decide)
    rw [List.cons_append, bulletSplit_cons_neg hcne, ih t (fun d hd => hu d (by simp [hd]))]
    cases bulletSplit t <;> simp

theorem clean_app_count : ∀ (u t : List Char), (∀ c ∈ u, cleanCh c = true) →
    countBullets (u ++ t) = countBullets t := by
  intro u
  induction u with
  | nil => intro t _; rfl
  | cons c u2 ih =>
    intro t hu
    have hc : cleanCh c = true := hu c (by simp)
    have hcne : ¬(c = '[' ∧ (u2 ++ t).take 2 = ['*', ']']) := by
      rintro ⟨rfl, _⟩
      exact absurd hc (by decide)
    rw [List.cons_append, countBullets_cons_neg hcne, ih t (fun d hd => hu d (by simp [hd]))]

theorem cond_bridge {c : Char} {a2 lbl b : List Char}
    (hc : ¬(c = '[' ∧ a2.take 2 = ['*', ']']))
    (hlbl : ∀ d ∈ lbl, cleanCh d = true) (hne : lbl ≠ []) :
    ¬(c = '[' ∧ (a2 ++ lbl ++ b).take 2 = ['*', ']']) := by
  rintro ⟨rfl, h2⟩
  apply hc
  refine ⟨rfl, ?_⟩
  cases a2 with
  | nil =>
    exfalso
    cases lbl with
    | nil => exact absurd rfl hne
    | cons l0 lr =>
      simp only [List.nil_append, List.cons_append] at h2
      have hl0 : l0 = '*' := by
        have := congrArg (fun l => l.head?) h2
        simpa using this
      exact absurd (hlbl l0 (by simp)) (by rw [hl0]; decide)
  | cons x a3 =>
    cases a3 with
    | nil =>
      exfalso
      cases lbl with
      | nil => exact absurd rfl hne
      | cons l0 lr =>
        simp at h2
        obtain ⟨-, hl0⟩ := h2
        exact absurd (hlbl l0 (by simp)) (by rw [hl0]; decide)
    | cons y a4 =>
      simp at h2 ⊢
      exact ⟨h2.1, h2.2⟩

theorem lemB : ∀ (a lbl b : List Char), bulletSplit a = none →
    (∀ d ∈ lbl, cleanCh d = true) → lbl ≠ [] →
    bulletSplit (a ++ lbl ++ b) =
      (bulletSplit b).map fun p => ((a ++ lbl) ++ p.1, p.2) := by
  intro a
  induction a with
  | nil =>
    intro lbl b _ hlbl hne
    simp only [List.nil_append]
    rw [clean_app_split lbl b hlbl]
  | cons c a2 ih =>
    intro lbl b ha hlbl hne
    have h1 : ¬(c = '[' ∧ a2.take 2 = ['*', ']']) := by
      intro hcond
      rw [bulletSplit_cons_pos hcond] at ha
      exact absurd ha (by simp)
    have h2 : bulletSplit a2 = none := by
      rw [bulletSplit_cons_neg h1] at ha
      cases hx : bulletSplit a2 with
      | none => rfl
      | some p => rw [hx] at ha; simp at ha
    have h3 := cond_bridge h1 hlbl hne (b := b)
    simp only [List.cons_append]
    rw [bulletSplit_cons_neg h3]
    have h4 := ih lbl b h2 hlbl hne
    rw [h4]
    cases bulletSplit b <;> simp

theorem lemB_count : ∀ (a lbl b : List Char), bulletSplit a = none →
    (∀ d ∈ lbl, cleanCh d = true) → lbl ≠ [] →
    countBullets (a ++ lbl ++ b) = countBullets b := by
  intro a
  induction a with
  | nil =>
    intro lbl b _ hlbl _
    simp only [List.nil_append]
    exact clean_app_count lbl b hlbl
  | cons c a2 ih =>
    intro lbl b ha hlbl hne
    have h1 : ¬(c = '[' ∧ a2.take 2 = ['*', ']']) := by
      intro hcond
      rw [bulletSplit_cons_pos hcond] at ha
      exact absurd ha (by simp)
    have h2 : bulletSplit a2 = none := by
      rw [bulletSplit_cons_neg h1] at ha
      cases hx : bulletSplit a2 with
      | none => rfl
      | some p => rw [hx] at ha; simp at ha
    have h3 := cond_bridge h1 hlbl hne (b := b)
    simp only [List.cons_append]
    rw [countBullets_cons_neg h3]
    exact ih lbl b h2 hlbl hne

theorem digits_clean : ∀ (fuel m : Nat), ∀ c ∈ natDigitsF fuel m, cleanCh c = true := by
  intro fuel
  induction fuel with
  | zero => intro m c h; simp [natDigitsF] at h
  | succ f ih =>
    intro m c h
    simp only [natDigitsF] at h
    split at h
    · next hm =>
      simp only [List.mem_singleton] at h
      subst h
      interval_cases m <;> decide
    · rcases List.mem_append.mp h with h1 | h1
      · exact ih _ c h1
      · simp only [List.mem_singleton] at h1
        subst h1
        have hk : m % 10 < 10 := Nat.mod_lt _ (by omega)
        set k := m % 10 with hkdef
        clear_value k
        interval_cases k <;> decide

theorem intStr_clean {n : Int} (h0 : 0 ≤ n) : ∀ c ∈ intStr n, cleanCh c = true := by
  unfold intStr
  rw [if_neg (by omega)]
  exact fun c hc => digits_clean _ _ c hc

theorem roman_chars : ∀ (ps : List (Nat × List Char)) (m : Nat),
    (∀ pr ∈ ps, ∀ c ∈ pr.2, c ∈ (("mcdxlvi").toList)) →
    ∀ c ∈ romanGo ps m, c ∈ (("mcdxlvi").toList) := by
  intro ps
  induction ps with
  | nil => intro m _ c h; simp [romanGo] at h
  | cons pr ps2 ih =>
    intro m hps c h
    simp only [romanGo] at h
    rcases List.mem_append.mp h with h1 | h1
    · obtain ⟨l, hl, hcl⟩ := List.mem_flatten.mp h1
      obtain ⟨-, rfl⟩ := List.mem_replicate.mp hl
      exact hps pr (by simp) c hcl
    · exact ih (m % pr.1) (fun q hq => hps q (by simp [hq])) c h1

theorem roman_mem {n : Int} : ∀ c ∈ romanOf n, c ∈ (("mcdxlvi").toList) := by
  intro c h
  unfold romanOf at h
  split at h
  · simp at h
  · exact roman_chars romanPairs n.toNat (by decide) c h

theorem romanOf_clean {n : Int} : ∀ c ∈ romanOf n, cleanCh c = true := by
  intro c h
  have h2 := roman_mem c h
  have h3 : c = 'm' ∨ c = 'c' ∨ c = 'd' ∨ c = 'x' ∨ c = 'l' ∨ c = 'v' ∨ c = 'i' := by
    simpa using h2
  rcases h3 with rfl | rfl | rfl | rfl | rfl | rfl | rfl <;> decide

theorem romanUpper_clean {n : Int} : ∀ c ∈ (romanOf n).map Char.toUpper, cleanCh c = true := by
  intro c h
  obtain ⟨d, hd, rfl⟩ := List.mem_map.mp h
  have h2 := roman_mem d hd
  have h3 : d = 'm' ∨ d = 'c' ∨ d = 'd' ∨ d = 'x' ∨ d = 'l' ∨ d = 'v' ∨ d = 'i' := by
    simpa using h2
  rcases h3 with rfl | rfl | rfl | rfl | rfl | rfl | rfl <;> decide

theorem label_clean (style : NumberingStyle) (n : Int) (h0 : 0 ≤ n) (h1 : n ≤ 32767) :
    (∀ c ∈ (numNext style n).1, cleanCh c = true) ∧ (numNext style n).1 ≠ [] := by
  constructor
  · intro c hc
    simp only [numNext] at hc
    rcases List.mem_append.mp hc with h2 | h2
    · obtain ⟨m, rfl⟩ := Int.eq_ofNat_of_zero_le h0
      rw [numRender_ofNat] at h2
      cases style with
      | decimal => exact intStr_clean h0 c h2
      | lowerRoman => exact romanOf_clean c h2
      | upperRoman => exact romanUpper_clean c h2
      | lowerAlpha =>
        simp only [specLabel, List.mem_singleton] at h2
        subst h2
        have hmod : (((m : Int)) % 26).toNat = m % 26 := by omega
        rw [hmod]
        have hk : m % 26 < 26 := Nat.mod_lt _ (by omega)
        set k := m % 26 with hkdef
        clear_value k
        interval_cases k <;> decide
      | upperAlpha =>
        simp only [specLabel, List.mem_singleton] at h2
        subst h2
        have hmod : (((m : Int)) % 26).toNat = m % 26 := by omega
        rw [hmod]
        have hk : m % 26 < 26 := Nat.mod_lt _ (by omega)
        set k := m % 26 with hkdef
        clear_value k
        interval_cases k <;> decide
    · have h3 : c = '.' ∨ c = ' ' := by simpa using h2
      rcases h3 with rfl | rfl <;> decide
  · simp [numNext]

theorem ordLoopF_nomatch (style : NumberingStyle) (t : List Char)
    (h : bulletSplit t = none) : ∀ (f : Nat) (n : Int), ordLoopF style f n t = t := by
  intro f n
  cases f with
  | zero => rfl
  | succ f2 => simp [ordLoopF, replaceFirstBullet, h]

theorem indexedF_nomatch (style : NumberingStyle) (t : List Char)
    (h : bulletSplit t = none) : ∀ (f : Nat) (n : Int), indexedReplaceF style f n t = t := by
  intro f n
  cases f with
  | zero => rfl
  | succ f2 => simp [indexedReplaceF, h]

theorem indexedF_congr : ∀ (f₁ f₂ : Nat) (style : NumberingStyle) (n : Int) (s : List Char),
    s.length < f₁ → s.length < f₂ →
    indexedReplaceF style f₁ n s = indexedReplaceF style f₂ n s := by
  intro f₁
  induction f₁ with
  | zero => intro f₂ style n s h _; omega
  | succ f ih =>
    intro f₂ style n s h₁ h₂
    cases f₂ with
    | zero => omega
    | succ g =>
      cases hsp : bulletSplit s with
      | none => simp only [indexedReplaceF, hsp]
      | some p =>
        obtain ⟨a, b⟩ := p
        have hlen := split_length s a b hsp
        simp only [indexedReplaceF, hsp]
        rw [ih g style (n + 1) b (by omega) (by omega)]

theorem indexedF_prepend (a lbl b : List Char) (ha : bulletSplit a = none)
    (hlbl : ∀ d ∈ lbl, cleanCh d = true) (hne : lbl ≠ []) (style : NumberingStyle)
    (n : Int) (f g : Nat) (hf : (a ++ lbl ++ b).length < f) (hg : b.length < g) :
    indexedReplaceF style f n (a ++ lbl ++ b) = a ++ lbl ++ indexedReplaceF style g n b := by
  cases f with
  | zero => omega
  | succ f2 =>
    have hsp := lemB a lbl b ha hlbl hne
    cases hb : bulletSplit b with
    | none =>
      rw [hb] at hsp
      simp only [Option.map_none'] at hsp
      rw [indexedF_nomatch style _ hsp, indexedF_nomatch style b hb]
    | some p =>
      obtain ⟨b1, b2⟩ := p
      rw [hb] at hsp
      simp only [Option.map_some'] at hsp
      cases g with
      | zero => omega
      | succ g2 =>
        have hl1 : (a ++ lbl ++ b).length = a.length + lbl.length + b.length := by
          simp only [List.length_append]
        have hl2 := split_length b b1 b2 hb
        simp only [indexedReplaceF, hsp, hb]
        rw [indexedF_congr f2 g2 style (n + 1) b2 (by omega) (by omega)]
        simp only [List.append_assoc]

theorem ordLoop_indexed : ∀ (fuel : Nat) (style : NumberingStyle) (n : Int) (s : List Char),
    countBullets s < fuel → 0 ≤ n → n + countBullets s ≤ 32768 →
    ordLoopF style fuel n s = indexedReplaceF style (s.length + 1) n s := by
  intro fuel
  induction fuel with
  | zero => intro style n s h _ _; omega
  | succ f ih =>
    intro style n s hcnt h0 hle
    cases hsp : bulletSplit s with
    | none =>
      rw [ordLoopF_nomatch style s hsp, indexedF_nomatch style s hsp]
    | some ab =>
      obtain ⟨a, b⟩ := ab
      obtain ⟨ws, hdecomp, hws, ha⟩ := split_decomp s a b hsp
      have hcount := count_split s a b hsp
      have hsl := split_length s a b hsp
      have hn_le : n ≤ 32767 := by omega
      obtain ⟨hclean, hlblne⟩ := label_clean style n h0 hn_le
      have hnew : replaceFirstBullet (numNext style n).1 s =
          a ++ (numNext style n).1 ++ b := by
        simp [replaceFirstBullet, hsp]
      have hneq : a ++ (numNext style n).1 ++ b ≠ s := by
        intro heq
        rw [hdecomp] at heq
        simp only [List.append_assoc] at heq
        have h5 := List.append_cancel_left heq
        cases hl : (numNext style n).1 with
        | nil => exact absurd hl hlblne
        | cons l0 lr =>
          rw [hl] at h5
          simp only [List.cons_append] at h5
          have hl0 : l0 = '[' := (List.cons.injEq _ _ _ _ ▸ h5).1
          have := hclean l0 (by rw [hl]; simp)
          rw [hl0] at this
          exact absurd this (by decide)
      have hstep : ordLoopF style (f + 1) n s =
          ordLoopF style f (numNext style n).2 (a ++ (numNext style n).1 ++ b) := by
        simp only [ordLoopF]
        rw [hnew, if_neg hneq]
      rw [hstep]
      have hcnt2 : countBullets (a ++ (numNext style n).1 ++ b) = countBullets b :=
        lemB_count a _ b ha hclean hlblne
      by_cases hb0 : countBullets b = 0
      · have hbnone := split_of_count hb0
        have hcompnone : bulletSplit (a ++ (numNext style n).1 ++ b) = none := by
          rw [lemB a _ b ha hclean hlblne, hbnone]
          rfl
        rw [ordLoopF_nomatch _ _ hcompnone]
        have hrhs : indexedReplaceF style (s.length + 1) n s =
            a ++ (numNext style n).1 ++ indexedReplaceF style s.length (n + 1) b := by
          simp only [indexedReplaceF, hsp]
        rw [hrhs, indexedF_nomatch style b hbnone]
      · have hw : wrap16 (n + 1) = n + 1 := wrap16_eq (by omega) (by omega)
        have hcursor : (numNext style n).2 = n + 1 := by simp [numNext, hw]
        rw [hcursor]
        have hrec := ih style (n + 1) (a ++ (numNext style n).1 ++ b)
          (by rw [hcnt2]; omega) (by omega) (by rw [hcnt2]; omega)
        rw [hrec]
        rw [indexedF_prepend a _ b ha hclean hlblne style (n + 1) _ (b.length + 1)
          (by omega) (by omega)]
        have hrhs : indexedReplaceF style (s.length + 1) n s =
            a ++ (numNext style n).1 ++ indexedReplaceF style s.length (n + 1) b := by
          simp only [indexedReplaceF, hsp]
        rw [hrhs, indexedF_congr (b.length + 1) s.length style (n + 1) b (by omega)
          (by omega)]

/-- C5: converting an ordered list body is the one-pass indexed
replacement — the j-th bullet marker receives exactly the label the
generator produces for cursor start + j, each label is consumed once,
replacement ends with the last marker of the body (the unbounded
generator is never pulled into the output beyond the body's own
count), and the source loop that replaces one marker per pass and
stops at the first unproductive pass computes precisely this.  The
range hypothesis keeps the i16 cursor away from its overflow, which
claim C6 documents separately. -/
theorem c5_ordered_list_labels (head content : List Char) (style : NumberingStyle)
    (start : Int) (hlh : listHeadDet head = some ⟨.ordered style, start⟩)
    (h0 : 0 ≤ start) (h1 : start + countBullets content ≤ 32768) :
    toMarkdownList head content =
      some (indexedReplaceF style (content.length + 1) start content) := by
  unfold toMarkdownList
  rw [hlh]
  simp only [Option.map_some']
  congr 1
  exact ordLoop_indexed (countBullets content + 1) style start content (by omega) h0 h1

/-- C5 witness: a decimal list with two items. -/
theorem c5_ordered_list_labels_witness :
    listHeadDet ((" type=\"1\"").toList) = some ⟨.ordered .decimal, 0⟩ ∧
    (0 : Int) ≤ 0 ∧ (0 : Int) + countBullets (("[*]a[*]b").toList) ≤ 32768 ∧
    toMarkdownList ((" type=\"1\"").toList) (("[*]a[*]b").toList) =
      some (indexedReplaceF .decimal ((("[*]a[*]b").toList).length + 1) 0
        (("[*]a[*]b").toList)) ∧
    indexedReplaceF .decimal ((("[*]a[*]b").toList).length + 1) 0 (("[*]a[*]b").toList) =
      (("0. a1. b").toList) :=
  ⟨by decide, by decide, by decide,
    c5_ordered_list_labels ((" type=\"1\"").toList) (("[*]a[*]b").toList) .decimal 0
      (by decide) (by decide) (by decide),
    by decide⟩
